/-
Verification of the securities-reconciliation core of the fund-of-funds
analytics repository.

The development shallowly embeds the Python source:

* `src/services/institutional_service.py` — `InstitutionalService.match_securities`
  (the SecurityMatcher), embedded as `matchSecurities` below together with its
  two passes (`tickerMatches`, `fuzzyMatches`) and the `Value_Numeric` column
  preparation (`ensureValueNumeric`).
* `src/services/fund_service.py` — `FundService.create_holdings`, embedded as
  `createHoldings`.
* `src/dashboard/components/portfolio_analysis.py` — the overlap aggregation
  (`holdingsMapOf`, `analyzeOverlaps`) and the fund-by-fund overlap matrix
  (`overlapMatrix`).
* `src/dashboard/components/institutional_holdings.py` —
  `InstitutionalHoldingsAnalyzer._get_underlying_securities`, embedded as
  `expandUnderlying`.

Modelling conventions:
* Python floats are modelled as rationals (`ℚ`); the float value `NaN` is not
  representable in `ℚ` and is modelled by the `Option`/`RawCell.na` layer at
  the points where the source checks `pd.notna`/`pd.isna`.
* A pandas cell is a `RawCell` (missing, string, or numeric); a missing
  ticker/name is `Option.none`.
* A pandas DataFrame is a list of rows plus an optional `Value_Numeric`
  column (`HFrame`); the source only ever adds this one column, so the other
  columns live inside the row structure.  Frames are modelled as always having
  a `Value` column (every frame built by this repository has one).
* String helpers (`upStr`, `loStr`, `trimStr`, …) re-implement the Python
  `str` methods structurally so that the kernel can evaluate them.
* In-place mutation of a DataFrame argument is modelled by explicit state
  passing: `matchSecurities` returns the final states of both of its inputs
  alongside the values the Python function returns.
* The fuzzy scorer `fuzz.ratio` comes from the third-party `fuzzywuzzy`
  library, which is not part of this repository; the matcher is therefore
  parametrised over an arbitrary scorer `scorer : String → String → ℕ`.
-/
import Mathlib

namespace Spec2Proof

/-! ## Python value model -/

/-- One pandas cell: missing (`NaN`), a string, or a number. -/
inductive RawCell where
  | na : RawCell
  | str : String → RawCell
  | num : ℚ → RawCell
deriving DecidableEq

/-- Python `s.upper()`. -/
def upStr (s : String) : String := ⟨s.data.map Char.toUpper⟩

/-- Python `s.lower()`. -/
def loStr (s : String) : String := ⟨s.data.map Char.toLower⟩

/-- Whitespace recognised by Python `str.strip()` (the forms that occur here). -/
def isWs (c : Char) : Bool := c = ' ' ∨ c = '\t' ∨ c = '\n' ∨ c = '\r'

/-- Python `s.strip()`. -/
def trimStr (s : String) : String :=
  ⟨((s.data.dropWhile isWs).reverse.dropWhile isWs).reverse⟩

/-- Python `s.replace('$','').replace(',','')`: every dollar sign and comma
is removed. -/
def stripMoney (s : String) : String :=
  ⟨s.data.filter (fun c => !(c = '$' || c = ','))⟩

/-- Numeric value of a digit string (most significant digit first). -/
def digitsVal (cs : List Char) : ℕ :=
  cs.foldl (fun n c => 10 * n + (c.toNat - 48)) 0

/-- All characters are decimal digits. -/
def allDigits (cs : List Char) : Bool := cs.all (·.isDigit)

/-- Split a character list at every `'.'`. -/
def splitDot : List Char → List (List Char)
  | [] => [[]]
  | c :: cs =>
    let r := splitDot cs
    if c = '.' then [] :: r
    else
      match r with
      | [] => [[c]]
      | h :: t => (c :: h) :: t

/-- The rational denoted by an integer part and a fractional digit part. -/
def ratOfParts (ip fp : List Char) : ℚ :=
  if fp.isEmpty then (digitsVal ip : ℚ)
  else (digitsVal ip : ℚ) + (digitsVal fp : ℚ) / ((10 : ℚ) ^ fp.length)

/-- Python `float(s)`: optional sign, decimal digits with at most one dot,
surrounding whitespace ignored; `none` models the `ValueError` raised on any
other input.  (Exponent and `inf`/`nan` spellings are outside the model; the
money format handled by this repository never produces them.) -/
def parseFloat (s : String) : Option ℚ :=
  let cs := (trimStr s).data
  let signed : Bool × List Char :=
    match cs with
    | '-' :: rest => (true, rest)
    | '+' :: rest => (false, rest)
    | other => (false, other)
  let body := signed.2
  let mk : ℚ → ℚ := fun q => if signed.1 then -q else q
  match splitDot body with
  | [ip] => if ip ≠ [] ∧ allDigits ip then some (mk (ratOfParts ip [])) else none
  | [ip, fp] =>
    if (ip ≠ [] ∨ fp ≠ []) ∧ allDigits ip ∧ allDigits fp then
      some (mk (ratOfParts ip fp))
    else none
  | _ => none

/-- The conversion lambda of `match_securities`
(`institutional_service.py:186/196`):
`float(str(x).replace('$','').replace(',','')) if pd.notna(x) else 0.0`.
`str` of a numeric cell re-parses to the same rational in this model;
`none` models the exception raised on an unparseable string. -/
def moneyToRat? : RawCell → Option ℚ
  | .na => some 0
  | .num q => some q
  | .str s => parseFloat (stripMoney s)

/-! ## DataFrame model and the `Value_Numeric` preparation -/

/-- One row of a holdings DataFrame (the columns `match_securities` reads). -/
structure HRow where
  name : Option String
  ticker : Option String
  value : RawCell
  pct : ℚ
deriving DecidableEq

/-- A holdings DataFrame: its rows plus the optional `Value_Numeric` column
(`none` models the column being absent). -/
structure HFrame where
  rows : List HRow
  valueNumeric : Option (List ℚ)
deriving DecidableEq

/-- Lines 182–200 of `institutional_service.py`: if a frame has no
`Value_Numeric` column, derive one from `Value` with the conversion lambda;
if the conversion of ANY cell raises, the whole column falls back to `0.0`
(`except Exception: df['Value_Numeric'] = 0.0` assigns the scalar to every
row).  A frame that already has the column is left untouched. -/
def ensureValueNumeric (f : HFrame) : HFrame :=
  match f.valueNumeric with
  | some _ => f
  | none =>
    if (f.rows.map (fun r => moneyToRat? r.value)).all Option.isSome then
      { rows := f.rows
        valueNumeric :=
          some ((f.rows.map (fun r => moneyToRat? r.value)).map (fun o => o.getD 0)) }
    else
      { rows := f.rows, valueNumeric := some (f.rows.map (fun _ => 0)) }

/-- `fund_holdings['Value_Numeric'].sum()` (line 204); the enclosing
`try/except` would produce `0.0` only if the column were absent, which
cannot happen after `ensureValueNumeric`. -/
def totalValue (f : HFrame) : ℚ :=
  match f.valueNumeric with
  | some vs => vs.sum
  | none => 0

/-- One element of `df.to_dict('records')`: a row together with its
`Value_Numeric` entry (`0` when the column is absent, matching the
`record.get('Value_Numeric', 0.0)` default). -/
structure MRec where
  name : Option String
  ticker : Option String
  value : RawCell
  vnum : ℚ
  pct : ℚ
deriving DecidableEq

/-- Fallback record (used only for out-of-range indexing, which never occurs). -/
def mrecDflt : MRec := ⟨none, none, .na, 0, 0⟩

/-- `df.to_dict('records')`. -/
def toRecords (f : HFrame) : List MRec :=
  f.rows.enum.map (fun p =>
    { name := p.2.name
      ticker := p.2.ticker
      value := p.2.value
      vnum := match f.valueNumeric with
              | some vs => vs.getD p.1 0
              | none => 0
      pct := p.2.pct })

/-! ## Exact (ticker) pass -/

/-- Ticker normalisation used by both sides of the exact pass (lines 214–218
and 224–228): the ticker must be truthy and not `NaN`, is upper-cased and
trimmed, and the results `'NONE'` and `'NAN'` are rejected. -/
def normTicker? (t : Option String) : Option String :=
  match t with
  | none => none
  | some s =>
    if s = "" then none
    else
      let n := trimStr (upStr s)
      if n = "NONE" ∨ n = "NAN" then none else some n

/-- The institution-side lookup `inst_dict` (lines 210–219): each B record is
inserted under its normalised ticker, later records overwriting earlier ones.
The Python dict stores the record itself; this model stores the record's row
index, which identifies it. -/
def instDict (B : List MRec) : String → Option ℕ :=
  B.enum.foldl
    (fun d p =>
      match normTicker? p.2.ticker with
      | some t => fun k => if k = t then some p.1 else d k
      | none => d)
    (fun _ => none)

/-- Match kind recorded in `Match_Type`: `'Ticker'` or `'Name (<score>%)'`. -/
inductive MatchKind where
  | ticker : MatchKind
  | name : ℕ → MatchKind
deriving DecidableEq

/-- One emitted match record.  `aIdx`/`bIdx` identify the fund-side and
institution-side rows the record was built from (the Python dict carries the
institution record inline and the fund row implicitly via the loop; the
indices carry the same information explicitly). -/
structure MatchRec where
  aIdx : ℕ
  bIdx : ℕ
  name : Option String
  tickerField : Option String
  fundValue : RawCell
  fundVnum : ℚ
  fundPct : ℚ
  instValue : RawCell
  instVnum : ℚ
  instPct : ℚ
  kind : MatchKind
deriving DecidableEq

/-- One iteration of the first pass (lines 223–261): an A record with a valid
normalised ticker found in `inst_dict` emits a `Ticker` match.  The
`isinstance`/`isna` sanitisation of the two numeric values is the identity in
the `ℚ` model. -/
def tickerMatch? (B : List MRec) (dict : String → Option ℕ) (p : ℕ × MRec) :
    Option MatchRec :=
  match normTicker? p.2.ticker with
  | none => none
  | some t =>
    match dict t with
    | none => none
    | some j =>
      let br := B.getD j mrecDflt
      some
        { aIdx := p.1
          bIdx := j
          name := p.2.name
          tickerField := p.2.ticker
          fundValue := p.2.value
          fundVnum := p.2.vnum
          fundPct := p.2.pct
          instValue := br.value
          instVnum := br.vnum
          instPct := br.pct
          kind := .ticker }

/-- The full first pass. -/
def tickerMatches (A B : List MRec) : List MatchRec :=
  A.enum.filterMap (tickerMatch? B (instDict B))

/-- `ticker_matched_indices` (line 222): exactly the indices for which a
ticker match was appended. -/
def tickerIdxs (A B : List MRec) : List ℕ :=
  (tickerMatches A B).map (fun m => m.aIdx)

/-! ## Fuzzy (name) pass -/

/-- `MAX_NAME_MATCHES` (line 265). -/
def maxNameMatches : ℕ := 500

/-- `inst_names` (lines 271–278): institution rows with a truthy, non-`NaN`
name, paired with their row index, names stripped, the list capped at
`MAX_NAME_MATCHES`. -/
def instNames (B : List MRec) : List (ℕ × String) :=
  (B.enum.filterMap (fun p =>
    match p.2.name with
    | none => none
    | some nm => if nm = "" then none else some (p.1, trimStr nm))).take maxNameMatches

/-- First character of a non-empty string, lower-cased (the cheap pre-filter
of line 310 compares `name[0].lower()`). -/
def firstCharLower (s : String) : Char := (s.data.headD ' ').toLower

/-- The score a candidate `(inst_idx, inst_name)` receives against the fund
name, if it survives the guards of lines 305–313: empty candidate names are
skipped, as are candidates whose first character differs from the fund
name's; otherwise the scorer runs on the lower-cased strings. -/
def candScore? (scorer : String → String → ℕ) (fname : String)
    (p : ℕ × String) : Option (ℕ × ℕ) :=
  if p.2 = "" then none
  else if firstCharLower fname ≠ firstCharLower p.2 then none
  else some (p.1, scorer (loStr fname) (loStr p.2))

/-- One step of the best-candidate fold (lines 304–316): the accumulator is
`(best_score, best_match)`; a candidate replaces it only when its score
STRICTLY exceeds `best_score`. -/
def bStep (scorer : String → String → ℕ) (fname : String)
    (acc : ℕ × Option (ℕ × ℕ)) (p : ℕ × String) : ℕ × Option (ℕ × ℕ) :=
  match candScore? scorer fname p with
  | none => acc
  | some js => if js.2 > acc.1 then (js.2, some js) else acc

/-- The best-candidate search for one fund name: `best_score` starts at the
threshold (line 302) and `best_match` at `None`. -/
def bestCandidate (scorer : String → String → ℕ) (threshold : ℕ)
    (names : List (ℕ × String)) (fname : String) : ℕ × Option (ℕ × ℕ) :=
  names.foldl (bStep scorer fname) (threshold, none)

/-- One iteration of the fuzzy loop (lines 291–342): records with a missing,
`NaN` or (after stripping) empty name are skipped; otherwise the best
candidate, if any, yields a `Name (<score>%)` match whose institution fields
come from `institution_holdings.iloc[inst_idx]`. -/
def fuzzyMatch? (scorer : String → String → ℕ) (B : List MRec)
    (threshold : ℕ) (names : List (ℕ × String)) (p : ℕ × MRec) :
    Option MatchRec :=
  match p.2.name with
  | none => none
  | some nm0 =>
    if nm0 = "" then none
    else
      let fname := trimStr nm0
      if fname = "" then none
      else
        match (bestCandidate scorer threshold names fname).2 with
        | none => none
        | some js =>
          let br := B.getD js.1 mrecDflt
          some
            { aIdx := p.1
              bIdx := js.1
              name := some fname
              tickerField := p.2.ticker
              fundValue := p.2.value
              fundVnum := p.2.vnum
              fundPct := p.2.pct
              instValue := br.value
              instVnum := br.vnum
              instPct := br.pct
              kind := .name js.2 }

/-- `unmatched_fund_records` (line 268), keeping each record's row index. -/
def unmatchedRecords (A B : List MRec) : List (ℕ × MRec) :=
  A.enum.filter (fun p => p.1 ∉ tickerIdxs A B)

/-- Lines 280–288: when more than `MAX_NAME_MATCHES` records are unmatched,
keep the 500 with the highest `Value_Numeric` (Python's `sorted` is a stable
sort, as is `List.mergeSort`); the `except` fallback of line 287 is dead in
this model because sorting rationals cannot raise. -/
def processedUnmatched (A B : List MRec) : List (ℕ × MRec) :=
  if (unmatchedRecords A B).length > maxNameMatches then
    ((unmatchedRecords A B).mergeSort
        (fun x y => decide (y.2.vnum ≤ x.2.vnum))).take maxNameMatches
  else unmatchedRecords A B

/-- The full second pass. -/
def fuzzyMatches (scorer : String → String → ℕ) (A B : List MRec)
    (threshold : ℕ) : List MatchRec :=
  (processedUnmatched A B).filterMap
    (fuzzyMatch? scorer B threshold (instNames B))

/-- Both passes in order: `matched_holdings` at line 344. -/
def allMatches (scorer : String → String → ℕ) (A B : List MRec)
    (threshold : ℕ) : List MatchRec :=
  tickerMatches A B ++ fuzzyMatches scorer A B threshold

/-- `InstitutionalService.match_securities`
(`institutional_service.py:168-348`).  Returns, in order: the matched
records, `matched_pct_by_count`, `matched_pct_by_value`, and — modelling the
in-place pandas mutation of lines 182–200 — the final states of the two
DataFrame arguments.  `matched_fund_values` is accumulated from exactly the
values recorded in the `Fund_Value_Numeric` field of each appended match, so
it equals the sum below. -/
def matchSecurities (scorer : String → String → ℕ)
    (fundHoldings institutionHoldings : HFrame) (threshold : ℕ := 80) :
    List MatchRec × ℚ × ℚ × HFrame × HFrame :=
  if fundHoldings.rows.isEmpty ∨ institutionHoldings.rows.isEmpty then
    ([], 0, 0, fundHoldings, institutionHoldings)
  else
    let fa := ensureValueNumeric fundHoldings
    let fb := ensureValueNumeric institutionHoldings
    let A := toRecords fa
    let B := toRecords fb
    let ms := allMatches scorer A B threshold
    let matchedValues := (ms.map (fun m => m.fundVnum)).sum
    let total := totalValue fa
    let pctCount : ℚ :=
      if fa.rows.length > 0 then ((ms.length : ℚ) / (fa.rows.length : ℚ)) * 100
      else 0
    let pctValue : ℚ := if total > 0 then (matchedValues / total) * 100 else 0
    (ms, pctCount, pctValue, fa, fb)

/-- Modelled from the spec: the external fuzzy scorer `fuzz.ratio` of the
`fuzzywuzzy` library, which is not part of this repository.  The concrete
inputs below only rely on the one property every string-similarity ratio
satisfies — identical strings score 100 — so the model scores identical
strings 100 and everything else 0.  All universally quantified theorems below
hold for an arbitrary scorer. -/
def scorerModel (s t : String) : ℕ := if s = t then 100 else 0

/-! ## `FundService.create_holdings` (`fund_service.py:52-125`) -/

/-- The columns of one raw holdings row that `create_holdings` reads. -/
structure CHRow where
  value : RawCell
  pct : RawCell
  cusip : Option String
  ticker : Option String
  name : Option String
  title : Option String
  category : Option String
deriving DecidableEq

/-- The `Holding` ORM fields populated by `create_holdings`. -/
structure Holding where
  cusip : Option String
  ticker : Option String
  name : Option String
  title : Option String
  assetType : Option String
  value : ℚ
  percentage : ℚ
deriving DecidableEq

/-- Lines 69–74: a string value is stripped of `$`/`,` and parsed (empty
string becomes `0.0`); a non-string is `float`-ed unless `NaN` (then `0.0`).
`none` models the `ValueError` that `float` raises. -/
def chValue? : RawCell → Option ℚ
  | .str s => let s2 := stripMoney s; if s2 = "" then some 0 else parseFloat s2
  | .na => some 0
  | .num q => some q

/-- Lines 77–78: `float(pct_raw) if not pd.isna(pct_raw) else 0.0` (no
stripping here). -/
def chPct? : RawCell → Option ℚ
  | .na => some 0
  | .num q => some q
  | .str s => parseFloat s

/-- One row of `create_holdings`: `none` models the row-level `except` of
line 108, which logs and drops the row. -/
def createHolding? (r : CHRow) : Option Holding := do
  let v ← chValue? r.value
  let p ← chPct? r.pct
  some
    { cusip := r.cusip
      ticker := r.ticker
      name := r.name
      title := r.title
      assetType := r.category
      value := v
      percentage := p }

/-- `FundService.create_holdings` over a DataFrame's rows: each row is
converted independently; a row whose conversion raises is skipped.  (The
surrounding database session and logging are out of scope; the outer
`try/except` at line 121 can only fire on session errors.) -/
def createHoldings (rows : List CHRow) : List Holding :=
  rows.filterMap createHolding?

/-! ## Portfolio overlap aggregation
(`portfolio_analysis.py`: `PortfolioAnalyzer._initialize_holdings`,
`analyze_overlaps`, and the matrix loop of `create_overlap_visualization` /
`render_portfolio_analysis`). -/

/-- One row of a fund's holdings as the analyzer reads it: its `Name` (the
dict key of `holdings_map`, always a string in these tables) and `Value`. -/
structure PRow where
  name : String
  value : RawCell
deriving DecidableEq

/-- Line 66: `{row['Name']: row for _, row in df.iterrows()}`.  A Python dict
keeps keys in first-insertion order and overwrites the value on re-insertion,
so a later row with a duplicate name silently replaces the earlier one. -/
def holdingsMapOf (rows : List PRow) : List (String × PRow) :=
  rows.foldl
    (fun acc r =>
      if acc.any (fun q => q.1 = r.name) then
        acc.map (fun q => if q.1 = r.name then (q.1, r) else q)
      else acc ++ [(r.name, r)])
    []

/-- Lines 96–102: the `Value` cell of a holding parsed for aggregation
(strip `$`/`,` from strings, `0` on `ValueError`/`TypeError`).  A `NaN` cell
would stay `NaN` in Python; `ℚ` has no `NaN`, so it is modelled as `0` (the
`Value` column of these tables is a formatted currency string, never `NaN`,
and no claim depends on this cell). -/
def overlapVal : RawCell → ℚ
  | .na => 0
  | .num q => q
  | .str s => (parseFloat (stripMoney s)).getD 0

/-- One overlap entry: security name, the set of funds holding it, and the
accumulated total value (`defaultdict(lambda: {'funds': set(), 'total_value': 0})`,
line 74). -/
abbrev OEntry := String × Finset String × ℚ

/-- Lines 104–105: `overlaps[stock_name]['funds'].add(fund)` and
`overlaps[stock_name]['total_value'] += value`; a missing key is first
created as `(∅, 0)`.  The entry list keeps the dict's first-insertion key
order. -/
def updOverlaps (ov : List OEntry) (fund nm : String) (v : ℚ) : List OEntry :=
  if ov.any (fun e => e.1 = nm) then
    ov.map (fun e => if e.1 = nm then (e.1, insert fund e.2.1, e.2.2 + v) else e)
  else ov ++ [(nm, insert fund ∅, 0 + v)]

/-- `PortfolioAnalyzer.analyze_overlaps` (lines 72–124, the aggregation part):
funds with an empty holdings dict are filtered out (line 79), then every
holding of every fund is folded into the `overlaps` dict.  `stock_name` is
`holding['Name']` (line 94). -/
def analyzeOverlaps (funds : List (String × List (String × PRow))) :
    List OEntry :=
  (funds.filter (fun f => !f.2.isEmpty)).foldl
    (fun ov f =>
      f.2.foldl (fun ov it => updOverlaps ov f.1 it.2.name (overlapVal it.2.value)) ov)
    []

/-- The full per-fund pipeline: build each fund's name-keyed dict (line 66),
then aggregate (`analyze_overlaps`). -/
def fundOverlaps (funds : List (String × List PRow)) : List OEntry :=
  analyzeOverlaps (funds.map (fun f => (f.1, holdingsMapOf f.2)))

/-- `matrix.loc[a, b] += 1`. -/
def bumpCell (m : String → String → ℕ) (a b : String) : String → String → ℕ :=
  fun x y => if x = a ∧ y = b then m a b + 1 else m x y

/-- The index pairs `(funds[i], funds[j])` for `i < j`, in loop order
(lines 142–143). -/
def pairsOf : List String → List (String × String)
  | [] => []
  | x :: xs => xs.map (fun y => (x, y)) ++ pairsOf xs

/-- Lines 140–145 for one overlap entry: both cells of every index pair are
incremented. -/
def entryStep (m : String → String → ℕ) (funds : List String) :
    String → String → ℕ :=
  (pairsOf funds).foldl (fun m p => bumpCell (bumpCell m p.1 p.2) p.2 p.1) m

/-- The fund-by-fund matrix of `create_overlap_visualization` (lines 138–145)
and `render_portfolio_analysis` (lines 282–288): starting from the all-zero
frame, fold every entry's fund list in.  (`pd.DataFrame(0, ...)` is indexed
by the selected tickers; the model's total function simply extends it by
zeroes.)  Each entry's `funds` is a Python set, so the lists fed in here have
distinct elements in an unspecified order. -/
def overlapMatrix (entries : List (List String)) : String → String → ℕ :=
  entries.foldl entryStep (fun _ _ => 0)

/-! ## `InstitutionalHoldingsAnalyzer._get_underlying_securities`
(`institutional_holdings.py:83-173`). -/

/-- One direct holding of the root fund, as the expansion reads it:
`Name`, `Ticker`, the row's `Value_Numeric` if that column exists, and its
`Value` if that column exists. -/
structure DRow where
  name : Option String
  ticker : Option String
  vnum : Option ℚ
  value : Option RawCell
deriving DecidableEq

/-- Line 91: `if ticker and str(ticker).upper() != 'NONE' and pd.notna(ticker)`
(no trimming and no `'NAN'` rejection here, unlike the matcher). -/
def validTicker? (t : Option String) : Option String :=
  match t with
  | none => none
  | some s => if s = "" then none else if upStr s = "NONE" then none else some s

/-- Lines 92–101: the direct holding's numeric value — `Value_Numeric` when
the row has it, else `Value` stripped and parsed (`0.0` on empty or parse
failure).  A `NaN` `Value` would stay `NaN` in Python (`float('nan')`);
modelled as `0`. -/
def dVnumOf (h : DRow) : ℚ :=
  match h.vnum with
  | some q => q
  | none =>
    match h.value with
    | some (.str s) => let s2 := stripMoney s; if s2 = "" then 0 else (parseFloat s2).getD 0
    | some (.num q) => q
    | some .na => 0
    | none => 0

/-- `ticker_to_fund_map` (lines 104–107): keyed by the RAW ticker string,
later holdings with the same ticker overwriting earlier ones. -/
def tickerFundMap (direct : List DRow) : String → Option (Option String × ℚ) :=
  direct.foldl
    (fun m h =>
      match validTicker? h.ticker with
      | some t => fun k => if k = t then some (h.name, dVnumOf h) else m k
      | none => m)
    (fun _ => none)

/-- `valid_tickers` (line 103): one entry per qualifying direct holding,
duplicates kept. -/
def validTickers (direct : List DRow) : List String :=
  direct.filterMap (fun h => validTicker? h.ticker)

/-- One record of the expansion result: an underlying row stamped with the
`Parent_Fund` / `Parent_Ticker` columns (lines 144–145). -/
structure URec where
  row : MRec
  parentFund : Option String
  parentTicker : String
deriving DecidableEq

/-- `_get_underlying_securities`, given the fetch capability
`FundService.get_holdings_details` as a collaborator (`none` models the
exception caught at lines 154–156).  For each valid ticker, in order (the
batching of lines 116–121 processes the same sequence in the same order): a
failed or empty fetch contributes nothing and the loop continues; otherwise
the fetched frame gets a `Value_Numeric` column if it lacks one (lines
127–141 — the dtype dispatch collapses to the same per-cell conversion with a
whole-column `0.0` fallback, i.e. `ensureValueNumeric`) and every row is
stamped with the map entry for that ticker.  The required-columns fill of
lines 148–150 touches only columns outside this model, and the final
re-coercion of lines 163–167 is the identity on an already numeric column. -/
def expandUnderlying (fetch : String → Option HFrame) (direct : List DRow) :
    List URec :=
  (validTickers direct).flatMap (fun t =>
    match fetch t with
    | none => []
    | some fr =>
      if fr.rows.isEmpty then []
      else
        (toRecords (ensureValueNumeric fr)).map (fun r =>
          { row := r
            parentFund := ((tickerFundMap direct t).getD (none, 0)).1
            parentTicker := t }))

/-! ## General helper lemmas -/

theorem map_filterMap_sublist_map {α β γ : Type _} (f : α → Option β) (g : β → γ)
    (h : α → γ) (H : ∀ a b, f a = some b → g b = h a) :
    ∀ l : List α, ((l.filterMap f).map g).Sublist (l.map h)
  | [] => by simp
  | a :: l => by
    cases hfa : f a with
    | none =>
      simpa [List.filterMap_cons, hfa] using
        (map_filterMap_sublist_map f g h H l).cons (h a)
    | some b =>
      simpa [List.filterMap_cons, hfa, H a b hfa] using
        (map_filterMap_sublist_map f g h H l).cons₂ (h a)

theorem length_filterMap_mono {α β : Type _} (f g : α → Option β) :
    ∀ l : List α, (∀ a ∈ l, (f a).isSome → (g a).isSome) →
      (l.filterMap f).length ≤ (l.filterMap g).length
  | [], _ => by simp
  | a :: l, H => by
    have ih := length_filterMap_mono f g l (fun x hx => H x (List.mem_cons_of_mem a hx))
    cases hfa : f a with
    | none =>
      cases hga : g a with
      | none => simpa [List.filterMap_cons, hfa, hga] using ih
      | some c =>
        simp only [List.filterMap_cons, hfa, hga, List.length_cons]
        omega
    | some b =>
      have : (g a).isSome := H a (List.mem_cons_self a l) (by simp [hfa])
      cases hga : g a with
      | none => rw [hga] at this; simp at this
      | some c => simp only [List.filterMap_cons, hfa, hga, List.length_cons]; omega

theorem length_filterMap_eq_length_filter {α β : Type _} (f : α → Option β) :
    ∀ l : List α, (l.filterMap f).length = (l.filter (fun a => (f a).isSome)).length
  | [] => by simp
  | a :: l => by
    cases hfa : f a with
    | none => simp [List.filterMap_cons, hfa, List.filter_cons,
        length_filterMap_eq_length_filter f l]
    | some b => simp [List.filterMap_cons, hfa, List.filter_cons,
        length_filterMap_eq_length_filter f l]

theorem foldl_eq_of_perm {α β : Type _} {f : β → α → β}
    (H : ∀ b a₁ a₂, f (f b a₁) a₂ = f (f b a₂) a₁) {l₁ l₂ : List α}
    (p : l₁.Perm l₂) : ∀ b, l₁.foldl f b = l₂.foldl f b := by
  induction p with
  | nil => intro b; rfl
  | cons x _ ih => intro b; simp only [List.foldl_cons]; exact ih (f b x)
  | swap x y l => intro b; simp only [List.foldl_cons]; rw [H]
  | trans _ _ ih₁ ih₂ => intro b; rw [ih₁ b, ih₂ b]

/-! ## The institution-side dictionary: last record wins -/

theorem dict_foldl_lookup (l : List (ℕ × MRec)) (base : String → Option ℕ)
    (t : String) :
    (l.foldl
        (fun d p =>
          match normTicker? p.2.ticker with
          | some t2 => fun k => if k = t2 then some p.1 else d k
          | none => d)
        base) t =
      (((l.filter (fun p => decide (normTicker? p.2.ticker = some t))).map
            Prod.fst).getLast?).or (base t) := by
  induction l using List.reverseRecOn with
  | nil => simp
  | append_singleton l a ih =>
    rw [List.foldl_append, List.filter_append, List.map_append, List.getLast?_append]
    simp only [List.foldl_cons, List.foldl_nil]
    cases ha : normTicker? a.2.ticker with
    | none =>
      have : decide (normTicker? a.2.ticker = some t) = false := by simp [ha]
      simp [ha, this, ih]
    | some t2 =>
      by_cases ht : t = t2
      · subst ht
        have : decide (normTicker? a.2.ticker = some t) = true := by simp [ha]
        simp [ha, this]
      · have : decide (normTicker? a.2.ticker = some t) = false := by
          simp [ha]; exact fun h => ht h.symm
        simp [ha, this, ih, ht, Ne.symm ht]

theorem instDict_eq_getLast (B : List MRec) (t : String) :
    instDict B t =
      ((B.enum.filter (fun p => decide (normTicker? p.2.ticker = some t))).map
          Prod.fst).getLast? := by
  have := dict_foldl_lookup B.enum (fun _ => none) t
  simpa [instDict] using this

/-! ## Per-pass bookkeeping lemmas -/

theorem tickerMatch?_aIdx {B : List MRec} {dict : String → Option ℕ}
    {p : ℕ × MRec} {m : MatchRec} (h : tickerMatch? B dict p = some m) :
    m.aIdx = p.1 := by
  unfold tickerMatch? at h
  split at h
  · simp at h
  · split at h
    · simp at h
    · cases h; rfl

theorem fuzzyMatch?_aIdx {scorer : String → String → ℕ} {B : List MRec}
    {threshold : ℕ} {names : List (ℕ × String)} {p : ℕ × MRec} {m : MatchRec}
    (h : fuzzyMatch? scorer B threshold names p = some m) : m.aIdx = p.1 := by
  simp only [fuzzyMatch?] at h
  split at h
  · simp at h
  · split at h
    · simp at h
    · split at h
      · simp at h
      · split at h
        · simp at h
        · cases h; rfl

theorem tickerIdxs_nodup (A B : List MRec) : (tickerIdxs A B).Nodup := by
  have hsub : (tickerIdxs A B).Sublist (A.enum.map Prod.fst) :=
    map_filterMap_sublist_map _ _ _
      (fun a b hab => tickerMatch?_aIdx hab) A.enum
  rw [List.enum_map_fst] at hsub
  exact List.Nodup.sublist hsub (List.nodup_range _)

theorem mem_processed_mem_unmatched {A B : List MRec} {p : ℕ × MRec}
    (h : p ∈ processedUnmatched A B) : p ∈ unmatchedRecords A B := by
  unfold processedUnmatched at h
  split at h
  · exact (List.mergeSort_perm (unmatchedRecords A B) _).mem_iff.1
      ((List.take_sublist _ _).mem h)
  · exact h

theorem mem_unmatched_not_ticker {A B : List MRec} {p : ℕ × MRec}
    (h : p ∈ unmatchedRecords A B) : p.1 ∉ tickerIdxs A B := by
  have := (List.mem_filter.1 h).2
  simpa using this

theorem processed_map_fst_nodup (A B : List MRec) :
    ((processedUnmatched A B).map Prod.fst).Nodup := by
  have hu : ((unmatchedRecords A B).map Prod.fst).Nodup := by
    have hsub := (List.filter_sublist (l := A.enum)
      (p := fun p => decide (p.1 ∉ tickerIdxs A B))).map Prod.fst
    rw [List.enum_map_fst] at hsub
    exact List.Nodup.sublist hsub (List.nodup_range _)
  unfold processedUnmatched
  split
  · have hperm := (List.mergeSort_perm (unmatchedRecords A B)
      (fun x y => decide (y.2.vnum ≤ x.2.vnum))).map Prod.fst
    exact List.Nodup.sublist ((List.take_sublist _ _).map Prod.fst)
      (hperm.nodup_iff.2 hu)
  · exact hu

/-! ## C10: last-wins ticker lookup -/

/-- **C10.** The B-side ticker lookup retains, for each normalised ticker,
exactly the LAST institution record (by row order) bearing it, and every A
record with that normalised ticker emits a separate ticker match whose
institution-side fields are those of that single retained B record. -/
theorem claim_c10_last_wins_ticker_lookup (A B : List MRec) (t : String) :
    (instDict B t =
      ((B.enum.filter (fun p => decide (normTicker? p.2.ticker = some t))).map
          Prod.fst).getLast?) ∧
    (∀ p ∈ A.enum, normTicker? p.2.ticker = some t →
      ∀ j, instDict B t = some j →
        ∃ m ∈ tickerMatches A B, m.aIdx = p.1 ∧ m.bIdx = j ∧
          m.kind = MatchKind.ticker ∧
          m.instValue = (B.getD j mrecDflt).value ∧
          m.instVnum = (B.getD j mrecDflt).vnum ∧
          m.instPct = (B.getD j mrecDflt).pct) := by
  refine ⟨instDict_eq_getLast B t, ?_⟩
  intro p hp hnorm j hdict
  have hm : tickerMatch? B (instDict B) p =
      some
        { aIdx := p.1
          bIdx := j
          name := p.2.name
          tickerField := p.2.ticker
          fundValue := p.2.value
          fundVnum := p.2.vnum
          fundPct := p.2.pct
          instValue := (B.getD j mrecDflt).value
          instVnum := (B.getD j mrecDflt).vnum
          instPct := (B.getD j mrecDflt).pct
          kind := MatchKind.ticker } := by
    simp only [tickerMatch?, hnorm, hdict]
  exact ⟨_, List.mem_filterMap.2 ⟨p, hp, hm⟩, rfl, rfl, rfl, rfl, rfl, rfl⟩

/-- Concrete data for C10: two A records and two B records whose tickers all
normalise to `"X"`. -/
def c10A : List MRec :=
  [⟨some "Alpha", some "X", .num 1, 1, 0⟩, ⟨some "Beta", some "x", .num 2, 2, 0⟩]

/-- Second C10 frame: both records normalise to ticker `"X"`; the dictionary
must retain index 1. -/
def c10B : List MRec :=
  [⟨some "Gamma", some "X", .num 8, 8, 0⟩, ⟨some "Delta", some "x ", .num 9, 9, 0⟩]

/-- Witness for C10 at concrete data: the lookup for `"X"` is row 1 (the
last of the two), and A record 0 matches against it. -/
theorem claim_c10_witness :
    (instDict c10B "X" =
      ((c10B.enum.filter
          (fun p => decide (normTicker? p.2.ticker = some "X"))).map
          Prod.fst).getLast?) ∧
    (∃ m ∈ tickerMatches c10A c10B, m.aIdx = 0 ∧ m.bIdx = 1 ∧
      m.kind = MatchKind.ticker ∧
      m.instValue = (c10B.getD 1 mrecDflt).value ∧
      m.instVnum = (c10B.getD 1 mrecDflt).vnum ∧
      m.instPct = (c10B.getD 1 mrecDflt).pct) :=
  ⟨(claim_c10_last_wins_ticker_lookup c10A c10B "X").1,
    (claim_c10_last_wins_ticker_lookup c10A c10B "X").2
      (0, ⟨some "Alpha", some "X", .num 1, 1, 0⟩) (by decide) (by decide) 1
      (by decide)⟩

/-! ## C1: consumption of records -/

/-- Fund frame with two records bearing ticker `"X"` (`Value_Numeric`
column present). -/
def faTwoX : HFrame :=
  ⟨[⟨some "Alpha One", some "X", .num 1, 0⟩,
    ⟨some "Alpha Two", some "X", .num 1, 0⟩], some [1, 1]⟩

/-- Institution frame with a single record bearing ticker `"X"`. -/
def fbOneX : HFrame := ⟨[⟨some "Gamma", some "X", .num 8, 0⟩], some [8]⟩

/-- **C1 counterexample.**  The claim says no B record appears in more than
one MatchResult.  With two A records whose normalised ticker is `"X"` and a
single B record bearing `"X"`, `match_securities` emits TWO matches, both
against institution row 0: B records are never marked consumed (the exact
pass only records `ticker_matched_indices` for the A side). -/
theorem claim_c1_counterexample :
    ¬ (((matchSecurities scorerModel faTwoX fbOneX 80).1.map
        (fun m => m.bIdx)).Nodup) := by decide

/-- **C1 (amended).**  What the code does guarantee is A-side consumption:
every A record participates in at most one MatchResult (ticker-matched
indices are excluded from the fuzzy pass, and each pass emits at most one
match per A record); B records are not consumed and may repeat. -/
theorem claim_c1_amended (scorer : String → String → ℕ) (fa fb : HFrame)
    (t : ℕ) :
    (((matchSecurities scorer fa fb t).1).map (fun m => m.aIdx)).Nodup := by
  unfold matchSecurities
  split
  · simp
  · show ((allMatches scorer (toRecords (ensureValueNumeric fa))
        (toRecords (ensureValueNumeric fb)) t).map (fun m => m.aIdx)).Nodup
    set A := toRecords (ensureValueNumeric fa) with hA
    set B := toRecords (ensureValueNumeric fb) with hB
    rw [allMatches, List.map_append]
    rw [List.nodup_append]
    refine ⟨tickerIdxs_nodup A B, ?_, ?_⟩
    · have hsub : ((fuzzyMatches scorer A B t).map (fun m => m.aIdx)).Sublist
          ((processedUnmatched A B).map Prod.fst) :=
        map_filterMap_sublist_map _ _ _
          (fun a b hab => fuzzyMatch?_aIdx hab) (processedUnmatched A B)
      exact List.Nodup.sublist hsub (processed_map_fst_nodup A B)
    · intro i hi hif
      have hi2 : i ∈ tickerIdxs A B := hi
      have : i ∈ (processedUnmatched A B).map Prod.fst := by
        have hsub : ((fuzzyMatches scorer A B t).map (fun m => m.aIdx)).Sublist
            ((processedUnmatched A B).map Prod.fst) :=
          map_filterMap_sublist_map _ _ _
            (fun a b hab => fuzzyMatch?_aIdx hab) (processedUnmatched A B)
        exact hsub.subset hif
      rcases List.mem_map.1 this with ⟨p, hp, hpi⟩
      have := mem_unmatched_not_ticker (mem_processed_mem_unmatched hp)
      rw [hpi] at this
      exact this hi2

/-! ## C2: the best-candidate selection rule -/

theorem foldl_bStep_from_some {scorer : String → String → ℕ} {fname : String} :
    ∀ (l : List (ℕ × String)) (j0 s0 : ℕ),
      ((l.foldl (bStep scorer fname) (s0, some (j0, s0))).2 = some (j0, s0) ∧
        ∀ q ∈ l, ∀ js : ℕ × ℕ, candScore? scorer fname q = some js →
          js.2 ≤ s0) ∨
      (∃ j s l1 p l2,
        (l.foldl (bStep scorer fname) (s0, some (j0, s0))).2 = some (j, s) ∧
        s0 < s ∧ l = l1 ++ p :: l2 ∧
        candScore? scorer fname p = some (j, s) ∧
        (∀ q ∈ l1, ∀ js : ℕ × ℕ, candScore? scorer fname q = some js →
          js.2 < s) ∧
        (∀ q ∈ l2, ∀ js : ℕ × ℕ, candScore? scorer fname q = some js →
          js.2 ≤ s))
  | [], j0, s0 => by
    left
    exact ⟨rfl, by simp⟩
  | p :: l, j0, s0 => by
    cases hc : candScore? scorer fname p with
    | none =>
      have hstep : bStep scorer fname (s0, some (j0, s0)) p = (s0, some (j0, s0)) := by
        simp [bStep, hc]
      rcases foldl_bStep_from_some l j0 s0 with ⟨he, hall⟩ | ⟨j, s, l1, p2, l2, he, hs, hl, hcp, hpre, hpost⟩
      · left
        refine ⟨by simpa [hstep] using he, ?_⟩
        intro q hq js hjs
        rcases List.mem_cons.1 hq with rfl | hq
        · rw [hc] at hjs; cases hjs
        · exact hall q hq js hjs
      · right
        refine ⟨j, s, p :: l1, p2, l2, by simpa [hstep] using he, hs, by simp [hl], hcp, ?_, hpost⟩
        intro q hq js hjs
        rcases List.mem_cons.1 hq with rfl | hq
        · rw [hc] at hjs; cases hjs
        · exact hpre q hq js hjs
    | some js1 =>
      by_cases h1 : js1.2 > s0
      · have hstep : bStep scorer fname (s0, some (j0, s0)) p = (js1.2, some js1) := by
          simp [bStep, hc, h1]
        rcases foldl_bStep_from_some l js1.1 js1.2 with ⟨he, hall⟩ | ⟨j, s, l1, p2, l2, he, hs, hl, hcp, hpre, hpost⟩
        · right
          refine ⟨js1.1, js1.2, [], p, l, by simpa [hstep] using he, h1, by simp, by simpa using hc, by simp, hall⟩
        · right
          refine ⟨j, s, p :: l1, p2, l2, by simpa [hstep] using he,
            lt_trans h1 hs, by simp [hl], hcp, ?_, hpost⟩
          intro q hq js hjs
          rcases List.mem_cons.1 hq with rfl | hq
          · rw [hc] at hjs; cases hjs; exact hs
          · exact hpre q hq js hjs
      · have hstep : bStep scorer fname (s0, some (j0, s0)) p = (s0, some (j0, s0)) := by
          simp [bStep, hc, h1]
        rcases foldl_bStep_from_some l j0 s0 with ⟨he, hall⟩ | ⟨j, s, l1, p2, l2, he, hs, hl, hcp, hpre, hpost⟩
        · left
          refine ⟨by simpa [hstep] using he, ?_⟩
          intro q hq js hjs
          rcases List.mem_cons.1 hq with rfl | hq
          · rw [hc] at hjs; cases hjs; omega
          · exact hall q hq js hjs
        · right
          refine ⟨j, s, p :: l1, p2, l2, by simpa [hstep] using he, hs, by simp [hl], hcp, ?_, hpost⟩
          intro q hq js hjs
          rcases List.mem_cons.1 hq with rfl | hq
          · rw [hc] at hjs; cases hjs; omega
          · exact hpre q hq js hjs

theorem foldl_bStep_from_none {scorer : String → String → ℕ} {fname : String} :
    ∀ (l : List (ℕ × String)) (b : ℕ),
      ((l.foldl (bStep scorer fname) (b, none)).2 = none ∧
        ∀ q ∈ l, ∀ js : ℕ × ℕ, candScore? scorer fname q = some js →
          js.2 ≤ b) ∨
      (∃ j s l1 p l2,
        (l.foldl (bStep scorer fname) (b, none)).2 = some (j, s) ∧
        b < s ∧ l = l1 ++ p :: l2 ∧
        candScore? scorer fname p = some (j, s) ∧
        (∀ q ∈ l1, ∀ js : ℕ × ℕ, candScore? scorer fname q = some js →
          js.2 < s) ∧
        (∀ q ∈ l2, ∀ js : ℕ × ℕ, candScore? scorer fname q = some js →
          js.2 ≤ s))
  | [], b => by
    left
    exact ⟨rfl, by simp⟩
  | p :: l, b => by
    cases hc : candScore? scorer fname p with
    | none =>
      have hstep : bStep scorer fname (b, none) p = (b, none) := by
        simp [bStep, hc]
      rcases foldl_bStep_from_none l b with ⟨he, hall⟩ | ⟨j, s, l1, p2, l2, he, hs, hl, hcp, hpre, hpost⟩
      · left
        refine ⟨by simpa [hstep] using he, ?_⟩
        intro q hq js hjs
        rcases List.mem_cons.1 hq with rfl | hq
        · rw [hc] at hjs; cases hjs
        · exact hall q hq js hjs
      · right
        refine ⟨j, s, p :: l1, p2, l2, by simpa [hstep] using he, hs, by simp [hl], hcp, ?_, hpost⟩
        intro q hq js hjs
        rcases List.mem_cons.1 hq with rfl | hq
        · rw [hc] at hjs; cases hjs
        · exact hpre q hq js hjs
    | some js1 =>
      by_cases h1 : js1.2 > b
      · have hstep : bStep scorer fname (b, none) p = (js1.2, some js1) := by
          simp [bStep, hc, h1]
        rcases foldl_bStep_from_some l js1.1 js1.2 with ⟨he, hall⟩ | ⟨j, s, l1, p2, l2, he, hs, hl, hcp, hpre, hpost⟩
        · right
          refine ⟨js1.1, js1.2, [], p, l, by simpa [hstep] using he, h1, by simp, by simpa using hc, by simp, hall⟩
        · right
          refine ⟨j, s, p :: l1, p2, l2, by simpa [hstep] using he,
            lt_trans h1 hs, by simp [hl], hcp, ?_, hpost⟩
          intro q hq js hjs
          rcases List.mem_cons.1 hq with rfl | hq
          · rw [hc] at hjs; cases hjs; exact hs
          · exact hpre q hq js hjs
      · have hstep : bStep scorer fname (b, none) p = (b, none) := by
          simp [bStep, hc, h1]
        rcases foldl_bStep_from_none l b with ⟨he, hall⟩ | ⟨j, s, l1, p2, l2, he, hs, hl, hcp, hpre, hpost⟩
        · left
          refine ⟨by simpa [hstep] using he, ?_⟩
          intro q hq js hjs
          rcases List.mem_cons.1 hq with rfl | hq
          · rw [hc] at hjs; cases hjs; omega
          · exact hall q hq js hjs
        · right
          refine ⟨j, s, p :: l1, p2, l2, by simpa [hstep] using he, hs, by simp [hl], hcp, ?_, hpost⟩
          intro q hq js hjs
          rcases List.mem_cons.1 hq with rfl | hq
          · rw [hc] at hjs; cases hjs; omega
          · exact hpre q hq js hjs

/-- Fund frame with the single record `{name: "Zeta Corp", ticker: null,
value: 10}`. -/
def faZeta : HFrame := ⟨[⟨some "Zeta Corp", none, .num 10, 0⟩], some [10]⟩

/-- Institution frame with the single record `{name: "Zeta Corp", ticker:
null, value: 8}`. -/
def fbZeta : HFrame := ⟨[⟨some "Zeta Corp", none, .num 8, 0⟩], some [8]⟩

/-- **C2 counterexample.**  The claim says a candidate whose score EQUALS the
threshold is accepted.  With identical names — which any string-similarity
ratio, `fuzz.ratio` included, scores at exactly 100 — and threshold 100, the
candidate scores exactly the threshold, yet `match_securities` returns no
match: line 314 requires `score > best_score`, and `best_score` starts AT the
threshold. -/
theorem claim_c2_counterexample :
    candScore? scorerModel (trimStr "Zeta Corp") (0, trimStr "Zeta Corp") =
      some (0, 100) ∧
    (matchSecurities scorerModel faZeta fbZeta 100).1 = [] := by decide

/-- **C2 (amended).**  In the fuzzy pass the best-scoring candidate STRICTLY
above the threshold is selected (a candidate scoring exactly the threshold is
rejected), ties are broken in favour of the first-encountered candidate, and
an emitted fuzzy match records exactly the selected candidate and score. -/
theorem claim_c2_strict_threshold (scorer : String → String → ℕ)
    (threshold : ℕ) (names : List (ℕ × String)) (fname : String) :
    ((bestCandidate scorer threshold names fname).2 = none ↔
      ∀ q ∈ names, ∀ js : ℕ × ℕ, candScore? scorer fname q = some js →
        js.2 ≤ threshold) ∧
    (∀ j s, (bestCandidate scorer threshold names fname).2 = some (j, s) →
      threshold < s ∧
      ∃ l1 p l2, names = l1 ++ p :: l2 ∧
        candScore? scorer fname p = some (j, s) ∧
        (∀ q ∈ l1, ∀ js : ℕ × ℕ, candScore? scorer fname q = some js →
          js.2 < s) ∧
        (∀ q ∈ l2, ∀ js : ℕ × ℕ, candScore? scorer fname q = some js →
          js.2 ≤ s)) ∧
    (∀ (B : List MRec) (p : ℕ × MRec) (m : MatchRec),
      fuzzyMatch? scorer B threshold names p = some m →
      ∃ s2, m.kind = MatchKind.name s2 ∧
        (bestCandidate scorer threshold names
            (trimStr (p.2.name.getD ""))).2 = some (m.bIdx, s2)) := by
  refine ⟨?_, ?_, ?_⟩
  · constructor
    · intro hnone
      rcases foldl_bStep_from_none names threshold with ⟨_, hall⟩ |
        ⟨j, s, l1, p, l2, he, _, _, _, _, _⟩
      · exact hall
      · rw [bestCandidate] at hnone; rw [hnone] at he; cases he
    · intro hall
      rcases foldl_bStep_from_none names threshold with ⟨he, _⟩ |
        ⟨j, s, l1, p, l2, he, hs, hl, hcp, _, _⟩
      · exact he
      · have hp : p ∈ names := by rw [hl]; exact List.mem_append_right l1 (List.mem_cons_self p l2)
        have := hall p hp (j, s) hcp
        omega
  · intro j s hsome
    rcases foldl_bStep_from_none names threshold with ⟨he, _⟩ |
      ⟨j2, s2, l1, p, l2, he, hs, hl, hcp, hpre, hpost⟩
    · rw [bestCandidate] at hsome; rw [hsome] at he; cases he
    · rw [bestCandidate] at hsome; rw [hsome] at he
      cases he
      exact ⟨hs, l1, p, l2, hl, hcp, hpre, hpost⟩
  · intro B p m h
    simp only [fuzzyMatch?] at h
    split at h
    · simp at h
    next nm0 hnm =>
      split at h
      · simp at h
      · split at h
        · simp at h
        · rename_i hb
          split at h
          · simp at h
          next js hbest =>
            cases h
            exact ⟨js.2, rfl, by simpa [hnm] using hbest⟩

/-- Witness for C2 (amended) at a concrete instance: with candidate list
`[(0, "zeta corp")]`, fund name `"zeta corp"` and threshold 99, the selected
candidate scores 100, strictly above the threshold, and is the first. -/
theorem claim_c2_witness :
    99 < 100 ∧
    ∃ l1 p l2, ([(0, "zeta corp")] : List (ℕ × String)) = l1 ++ p :: l2 ∧
      candScore? scorerModel "zeta corp" p = some (0, 100) ∧
      (∀ q ∈ l1, ∀ js : ℕ × ℕ, candScore? scorerModel "zeta corp" q = some js →
        js.2 < 100) ∧
      (∀ q ∈ l2, ∀ js : ℕ × ℕ, candScore? scorerModel "zeta corp" q = some js →
        js.2 ≤ 100) :=
  (claim_c2_strict_threshold scorerModel 99 [(0, "zeta corp")]
    "zeta corp").2.1 0 100 (by decide)

/-! ## C3: threshold monotonicity -/

theorem matchSecurities_fst (scorer : String → String → ℕ) (fa fb : HFrame)
    (t : ℕ) :
    (matchSecurities scorer fa fb t).1 =
      if fa.rows.isEmpty ∨ fb.rows.isEmpty then []
      else
        allMatches scorer (toRecords (ensureValueNumeric fa))
          (toRecords (ensureValueNumeric fb)) t := by
  unfold matchSecurities
  split
  · rfl
  · rfl

theorem bestCandidate_isSome_mono {scorer : String → String → ℕ}
    {fname : String} {names : List (ℕ × String)} {t1 t2 : ℕ} (h : t1 ≤ t2)
    (hs : ((bestCandidate scorer t2 names fname).2).isSome) :
    ((bestCandidate scorer t1 names fname).2).isSome := by
  rcases @foldl_bStep_from_none scorer fname names t2 with
    ⟨he, _⟩ | ⟨j, s, l1, p, l2, he, hgt, hl, hcp, _, _⟩
  · rw [bestCandidate] at hs; rw [he] at hs; simp at hs
  · rcases @foldl_bStep_from_none scorer fname names t1 with
      ⟨he1, hall1⟩ | ⟨j1, s1, l1b, pb, l2b, he1, _, _, _, _, _⟩
    · exfalso
      have hp : p ∈ names := by
        rw [hl]; exact List.mem_append_right l1 (List.mem_cons_self p l2)
      have := hall1 p hp (j, s) hcp
      omega
    · rw [bestCandidate, he1]; rfl

theorem fuzzyMatch?_isSome_mono {scorer : String → String → ℕ} {B : List MRec}
    {names : List (ℕ × String)} {t1 t2 : ℕ} (h : t1 ≤ t2) (p : ℕ × MRec)
    (hs : (fuzzyMatch? scorer B t2 names p).isSome) :
    (fuzzyMatch? scorer B t1 names p).isSome := by
  simp only [fuzzyMatch?] at hs ⊢
  cases hn : p.2.name with
  | none => simp only [hn] at hs; simp at hs
  | some nm0 =>
    simp only [hn] at hs ⊢
    by_cases h0 : nm0 = ""
    · simp only [if_pos h0] at hs; simp at hs
    · simp only [if_neg h0] at hs ⊢
      by_cases h1 : trimStr nm0 = ""
      · simp only [if_pos h1] at hs; simp at hs
      · simp only [if_neg h1] at hs ⊢
        cases hb2 : (bestCandidate scorer t2 names (trimStr nm0)).2 with
        | none => simp only [hb2] at hs; simp at hs
        | some js =>
          have : ((bestCandidate scorer t1 names (trimStr nm0)).2).isSome :=
            bestCandidate_isSome_mono h (by simp [hb2])
          cases hb1 : (bestCandidate scorer t1 names (trimStr nm0)).2 with
          | none => rw [hb1] at this; simp at this
          | some js1 => simp only [hb1]; rfl

/-- **C3.**  Threshold monotonicity: for fixed inputs, raising the threshold
never increases the number of matches (the exact pass ignores the threshold
and, per unmatched record, a fuzzy match found at the higher threshold is
also found at the lower one). -/
theorem claim_c3_threshold_monotone (scorer : String → String → ℕ)
    (fa fb : HFrame) {t1 t2 : ℕ} (h : t1 ≤ t2) :
    ((matchSecurities scorer fa fb t2).1).length ≤
      ((matchSecurities scorer fa fb t1).1).length := by
  rw [matchSecurities_fst, matchSecurities_fst]
  split
  · exact le_refl _
  · rw [allMatches, allMatches, List.length_append, List.length_append]
    have hf : (fuzzyMatches scorer (toRecords (ensureValueNumeric fa))
        (toRecords (ensureValueNumeric fb)) t2).length ≤
        (fuzzyMatches scorer (toRecords (ensureValueNumeric fa))
          (toRecords (ensureValueNumeric fb)) t1).length := by
      unfold fuzzyMatches
      exact length_filterMap_mono _ _ _
        (fun p _ hp => fuzzyMatch?_isSome_mono h p hp)
    omega

/-- Witness for C3: at the concrete Zeta frames, the match count at threshold
100 (zero matches) is at most the count at threshold 99 (one match). -/
theorem claim_c3_witness :
    99 ≤ 100 ∧
    ((matchSecurities scorerModel faZeta fbZeta 100).1).length ≤
      ((matchSecurities scorerModel faZeta fbZeta 99).1).length :=
  ⟨by decide, claim_c3_threshold_monotone scorerModel faZeta fbZeta (by decide)⟩

/-! ## C4: coverage bounds — counting lemmas -/

theorem enum_snd_unique {α : Type _} {l : List α} {i : ℕ} {x y : α}
    (hx : (i, x) ∈ l.enum) (hy : (i, y) ∈ l.enum) : x = y := by
  rcases List.mem_enum hx with ⟨hi, hx2⟩
  rcases List.mem_enum hy with ⟨_, hy2⟩
  rw [hx2, hy2]

theorem mem_tickerIdxs_iff {A B : List MRec} {p : ℕ × MRec}
    (hp : p ∈ A.enum) :
    p.1 ∈ tickerIdxs A B ↔ (tickerMatch? B (instDict B) p).isSome := by
  constructor
  · intro hi
    rcases List.mem_map.1 hi with ⟨m, hm, hmi⟩
    rcases List.mem_filterMap.1 hm with ⟨q, hq, hqm⟩
    have hqa : m.aIdx = q.1 := tickerMatch?_aIdx hqm
    have hq1 : q.1 = p.1 := by rw [← hqa, hmi]
    have : q.2 = p.2 := by
      rcases p with ⟨i, x⟩
      rcases q with ⟨i2, y⟩
      cases hq1
      exact enum_snd_unique hq hp
    have hq' : q = p := Prod.ext hq1 this
    rw [hq'] at hqm
    simp [hqm]
  · intro hs
    cases hm : tickerMatch? B (instDict B) p with
    | none => rw [hm] at hs; simp at hs
    | some m =>
      have : m ∈ tickerMatches A B := List.mem_filterMap.2 ⟨p, hp, hm⟩
      exact List.mem_map.2 ⟨m, this, tickerMatch?_aIdx hm⟩

theorem unmatched_eq_filter_not (A B : List MRec) :
    unmatchedRecords A B =
      A.enum.filter (fun p => !(tickerMatch? B (instDict B) p).isSome) := by
  unfold unmatchedRecords
  refine List.filter_congr ?_
  intro p hp
  have := mem_tickerIdxs_iff (B := B) hp
  by_cases hi : p.1 ∈ tickerIdxs A B
  · simp [hi, this.1 hi]
  · have : ¬ (tickerMatch? B (instDict B) p).isSome := fun hs => hi (this.2 hs)
    simp [hi, this]

theorem tickerMatches_length_add (A B : List MRec) :
    (tickerMatches A B).length + (unmatchedRecords A B).length = A.length := by
  rw [tickerMatches, length_filterMap_eq_length_filter, unmatched_eq_filter_not]
  have := (List.length_eq_length_filter_add
    (l := A.enum) (fun p => (tickerMatch? B (instDict B) p).isSome)).symm
  rw [this]
  exact List.enum_length

theorem processed_length_le (A B : List MRec) :
    (processedUnmatched A B).length ≤ (unmatchedRecords A B).length := by
  unfold processedUnmatched
  split
  · calc (((unmatchedRecords A B).mergeSort
        (fun x y => decide (y.2.vnum ≤ x.2.vnum))).take maxNameMatches).length
        ≤ ((unmatchedRecords A B).mergeSort
            (fun x y => decide (y.2.vnum ≤ x.2.vnum))).length :=
          (List.take_sublist _ _).length_le
      _ = (unmatchedRecords A B).length := List.length_mergeSort _
  · exact le_refl _

theorem allMatches_length_le (scorer : String → String → ℕ) (A B : List MRec)
    (t : ℕ) : (allMatches scorer A B t).length ≤ A.length := by
  rw [allMatches, List.length_append]
  have h1 : (fuzzyMatches scorer A B t).length ≤ (processedUnmatched A B).length :=
    List.length_filterMap_le _ _
  have h2 := processed_length_le A B
  have h3 := tickerMatches_length_add A B
  omega

/-! ## C4: coverage bounds — value lemmas -/

theorem tickerMatch?_fundVnum {B : List MRec} {dict : String → Option ℕ}
    {p : ℕ × MRec} {m : MatchRec} (h : tickerMatch? B dict p = some m) :
    m.fundVnum = p.2.vnum := by
  unfold tickerMatch? at h
  split at h
  · simp at h
  · split at h
    · simp at h
    · cases h; rfl

theorem fuzzyMatch?_fundVnum {scorer : String → String → ℕ} {B : List MRec}
    {threshold : ℕ} {names : List (ℕ × String)} {p : ℕ × MRec} {m : MatchRec}
    (h : fuzzyMatch? scorer B threshold names p = some m) :
    m.fundVnum = p.2.vnum := by
  simp only [fuzzyMatch?] at h
  split at h
  · simp at h
  · split at h
    · simp at h
    · split at h
      · simp at h
      · split at h
        · simp at h
        · cases h; rfl

theorem sum_map_filterMap_eq {α β : Type _} (f : α → Option β) (g : β → ℚ)
    (h : α → ℚ) (H : ∀ a b, f a = some b → g b = h a) :
    ∀ l : List α,
      ((l.filterMap f).map g).sum =
        ((l.filter (fun a => (f a).isSome)).map h).sum
  | [] => by simp
  | a :: l => by
    cases hfa : f a with
    | none =>
      simp [List.filterMap_cons, hfa, List.filter_cons,
        sum_map_filterMap_eq f g h H l]
    | some b =>
      simp [List.filterMap_cons, hfa, List.filter_cons, H a b hfa,
        sum_map_filterMap_eq f g h H l]

theorem sum_map_filterMap_le {α β : Type _} (f : α → Option β) (g : β → ℚ)
    (h : α → ℚ) (H : ∀ a b, f a = some b → g b = h a) :
    ∀ l : List α, (∀ a ∈ l, 0 ≤ h a) →
      ((l.filterMap f).map g).sum ≤ (l.map h).sum
  | [], _ => by simp
  | a :: l, hnn => by
    have ih := sum_map_filterMap_le f g h H l
      (fun x hx => hnn x (List.mem_cons_of_mem a hx))
    cases hfa : f a with
    | none =>
      have := hnn a (List.mem_cons_self a l)
      simp only [List.filterMap_cons, hfa, List.map_cons, List.sum_cons]
      linarith
    | some b =>
      simp only [List.filterMap_cons, hfa, List.map_cons, List.sum_cons,
        H a b hfa]
      linarith

theorem sum_map_filter_add {α : Type _} (p : α → Bool) (h : α → ℚ) :
    ∀ l : List α,
      ((l.filter p).map h).sum + ((l.filter (fun a => !(p a))).map h).sum =
        (l.map h).sum
  | [] => by simp
  | a :: l => by
    cases hp : p a with
    | true => simp [List.filter_cons, hp, ← sum_map_filter_add p h l]; ring
    | false => simp [List.filter_cons, hp, ← sum_map_filter_add p h l]; ring

theorem sum_range_getD (vs : List ℚ) :
    ∀ n : ℕ, (((List.range n).map (fun i => vs.getD i 0)).sum) =
      (vs.take n).sum
  | 0 => by simp
  | n + 1 => by
    rw [List.range_succ, List.map_append, List.sum_append, List.take_succ,
      List.sum_append, sum_range_getD vs n]
    simp only [List.map_cons, List.map_nil, List.sum_cons, List.sum_nil]
    have : vs.getD n 0 = (vs[n]?).getD 0 := List.getD_eq_getElem?_getD vs n 0
    cases hv : vs[n]? with
    | none => simp [this, hv]
    | some v => simp [this, hv]

theorem take_sum_le (vs : List ℚ) (hnn : ∀ v ∈ vs, 0 ≤ v) (n : ℕ) :
    (vs.take n).sum ≤ vs.sum := by
  conv_rhs => rw [← List.take_append_drop n vs]
  rw [List.sum_append]
  have : 0 ≤ (vs.drop n).sum :=
    List.sum_nonneg (fun v hv => hnn v ((List.drop_subset n vs) hv))
  linarith

theorem getD_nonneg {vs : List ℚ} (hnn : ∀ v ∈ vs, 0 ≤ v) (i : ℕ) :
    0 ≤ vs.getD i 0 := by
  rw [List.getD_eq_getElem?_getD]
  cases hv : vs[i]? with
  | none => simp
  | some v =>
    have : v ∈ vs := List.getElem?_mem hv
    simpa using hnn v this

theorem ensure_rows (f : HFrame) : (ensureValueNumeric f).rows = f.rows := by
  unfold ensureValueNumeric
  split
  · rfl
  · split
    · rfl
    · rfl

theorem ensure_isSome (f : HFrame) :
    ((ensureValueNumeric f).valueNumeric).isSome := by
  unfold ensureValueNumeric
  split
  next vs h => rw [h]; rfl
  · split
    · rfl
    · rfl

theorem toRecords_length (f : HFrame) :
    (toRecords f).length = f.rows.length := by
  unfold toRecords
  rw [List.length_map, List.enum_length]

theorem toRecords_vnum_nonneg {f : HFrame} {vs : List ℚ}
    (hvs : f.valueNumeric = some vs) (hnn : ∀ v ∈ vs, 0 ≤ v) :
    ∀ r ∈ toRecords f, 0 ≤ r.vnum := by
  intro r hr
  rcases List.mem_map.1 hr with ⟨q, hq, rfl⟩
  simp only [hvs]
  exact getD_nonneg hnn q.1

theorem toRecords_vnum_sum {f : HFrame} {vs : List ℚ}
    (hvs : f.valueNumeric = some vs) :
    ((toRecords f).map (fun r => r.vnum)).sum = (vs.take f.rows.length).sum := by
  unfold toRecords
  rw [List.map_map]
  have h1 : ((fun r : MRec => r.vnum) ∘ (fun p : ℕ × HRow =>
      ({ name := p.2.name, ticker := p.2.ticker, value := p.2.value,
         vnum := match f.valueNumeric with
                 | some vs => vs.getD p.1 0
                 | none => 0,
         pct := p.2.pct } : MRec))) =
      ((fun i => vs.getD i 0) ∘ Prod.fst) := by
    funext p
    simp [Function.comp, hvs]
  rw [h1, ← List.map_map, List.enum_map_fst, sum_range_getD]

theorem allMatches_fundVnum_src {scorer : String → String → ℕ}
    {A B : List MRec} {t : ℕ} {m : MatchRec}
    (hm : m ∈ allMatches scorer A B t) :
    ∃ p ∈ A.enum, m.fundVnum = p.2.vnum := by
  rw [allMatches, List.mem_append] at hm
  rcases hm with hm | hm
  · rcases List.mem_filterMap.1 hm with ⟨p, hp, hpm⟩
    exact ⟨p, hp, tickerMatch?_fundVnum hpm⟩
  · rcases List.mem_filterMap.1 hm with ⟨p, hp, hpm⟩
    have hp2 := mem_processed_mem_unmatched hp
    exact ⟨p, List.mem_of_mem_filter hp2, fuzzyMatch?_fundVnum hpm⟩

theorem allMatches_value_le (scorer : String → String → ℕ) (A B : List MRec)
    (t : ℕ) (hnn : ∀ p ∈ A.enum, 0 ≤ p.2.vnum) :
    ((allMatches scorer A B t).map (fun m => m.fundVnum)).sum ≤
      (A.enum.map (fun p => p.2.vnum)).sum := by
  rw [allMatches, List.map_append, List.sum_append]
  have hT : ((tickerMatches A B).map (fun m => m.fundVnum)).sum =
      ((A.enum.filter (fun p => (tickerMatch? B (instDict B) p).isSome)).map
        (fun p => p.2.vnum)).sum :=
    sum_map_filterMap_eq _ _ _ (fun a b hab => tickerMatch?_fundVnum hab) A.enum
  have hF : ((fuzzyMatches scorer A B t).map (fun m => m.fundVnum)).sum ≤
      ((processedUnmatched A B).map (fun p => p.2.vnum)).sum := by
    unfold fuzzyMatches
    exact sum_map_filterMap_le _ _ _ (fun a b hab => fuzzyMatch?_fundVnum hab) _
      (fun p hp => hnn p (List.mem_of_mem_filter (mem_processed_mem_unmatched hp)))
  have hP : ((processedUnmatched A B).map (fun p => p.2.vnum)).sum ≤
      ((unmatchedRecords A B).map (fun p => p.2.vnum)).sum := by
    unfold processedUnmatched
    split
    · have hperm : (((unmatchedRecords A B).mergeSort
          (fun x y => decide (y.2.vnum ≤ x.2.vnum))).map (fun p => p.2.vnum)).Perm
          ((unmatchedRecords A B).map (fun p => p.2.vnum)) :=
        (List.mergeSort_perm _ _).map _
      have hsub : ((((unmatchedRecords A B).mergeSort
          (fun x y => decide (y.2.vnum ≤ x.2.vnum))).take maxNameMatches).map
            (fun p => p.2.vnum)).Sublist
          (((unmatchedRecords A B).mergeSort
            (fun x y => decide (y.2.vnum ≤ x.2.vnum))).map (fun p => p.2.vnum)) :=
        (List.take_sublist _ _).map _
      have hnn2 : ∀ x ∈ (((unmatchedRecords A B).mergeSort
          (fun x y => decide (y.2.vnum ≤ x.2.vnum))).map (fun p => p.2.vnum)),
          0 ≤ x := by
        intro x hx
        rcases List.mem_map.1 hx with ⟨p, hp, rfl⟩
        exact hnn p (List.mem_of_mem_filter ((List.mergeSort_perm _ _).mem_iff.1 hp))
      calc ((((unmatchedRecords A B).mergeSort
            (fun x y => decide (y.2.vnum ≤ x.2.vnum))).take maxNameMatches).map
              (fun p => p.2.vnum)).sum
          ≤ (((unmatchedRecords A B).mergeSort
              (fun x y => decide (y.2.vnum ≤ x.2.vnum))).map
                (fun p => p.2.vnum)).sum := hsub.sum_le_sum hnn2
        _ = ((unmatchedRecords A B).map (fun p => p.2.vnum)).sum := hperm.sum_eq
    · exact le_refl _
  have hsplit := sum_map_filter_add
    (fun p => (tickerMatch? B (instDict B) p).isSome) (fun p => p.2.vnum) A.enum
  rw [unmatched_eq_filter_not] at hP
  linarith

/-- The one-equation unfolding of `matchSecurities`. -/
theorem matchSecurities_eq (scorer : String → String → ℕ) (fa fb : HFrame)
    (t : ℕ) :
    matchSecurities scorer fa fb t =
      if fa.rows.isEmpty ∨ fb.rows.isEmpty then ([], 0, 0, fa, fb)
      else
        (allMatches scorer (toRecords (ensureValueNumeric fa))
            (toRecords (ensureValueNumeric fb)) t,
          (if (ensureValueNumeric fa).rows.length > 0 then
            (((allMatches scorer (toRecords (ensureValueNumeric fa))
                (toRecords (ensureValueNumeric fb)) t).length : ℚ) /
              ((ensureValueNumeric fa).rows.length : ℚ)) * 100
          else 0),
          (if totalValue (ensureValueNumeric fa) > 0 then
            (((allMatches scorer (toRecords (ensureValueNumeric fa))
                (toRecords (ensureValueNumeric fb)) t).map
                  (fun m => m.fundVnum)).sum /
              totalValue (ensureValueNumeric fa)) * 100
          else 0),
          ensureValueNumeric fa, ensureValueNumeric fb) := by
  unfold matchSecurities
  split
  · rfl
  · rfl

/-- **C4.**  Coverage bounds: `0 ≤ pct_by_count ≤ 100` always;
`0 ≤ pct_by_value ≤ 100` whenever the (prepared) fund values are
non-negative, as the data model guarantees; and an empty input yields the
empty result with both percentages `0` (the embedding is a total function —
no exception is raised). -/
theorem claim_c4_coverage_bounds (scorer : String → String → ℕ)
    (fa fb : HFrame) (t : ℕ) :
    (0 ≤ (matchSecurities scorer fa fb t).2.1 ∧
      (matchSecurities scorer fa fb t).2.1 ≤ 100) ∧
    ((∀ v ∈ ((ensureValueNumeric fa).valueNumeric).getD [], (0:ℚ) ≤ v) →
      0 ≤ (matchSecurities scorer fa fb t).2.2.1 ∧
      (matchSecurities scorer fa fb t).2.2.1 ≤ 100) ∧
    (fa.rows.isEmpty ∨ fb.rows.isEmpty →
      matchSecurities scorer fa fb t = ([], 0, 0, fa, fb)) := by
  rw [matchSecurities_eq]
  by_cases hemp : fa.rows.isEmpty ∨ fb.rows.isEmpty
  · rw [if_pos hemp]
    refine ⟨⟨le_refl 0, by norm_num⟩, fun _ => ⟨le_refl 0, by norm_num⟩, fun _ => rfl⟩
  · rw [if_neg hemp]
    have hrows : (ensureValueNumeric fa).rows.length = fa.rows.length := by
      rw [ensure_rows]
    have hpos : 0 < fa.rows.length := by
      rcases List.isEmpty_eq_false_iff_exists_mem.1 (by
        cases h : fa.rows.isEmpty
        · rfl
        · exact absurd (Or.inl h) hemp) with ⟨x, hx⟩
      exact List.length_pos_of_mem hx
    refine ⟨?_, ?_, fun h => absurd h hemp⟩
    · -- pct_by_count bounds
      show 0 ≤ (if (ensureValueNumeric fa).rows.length > 0 then _ else 0) ∧ _
      rw [if_pos (by omega)]
      constructor
      · positivity
      · set msl := (allMatches scorer (toRecords (ensureValueNumeric fa))
          (toRecords (ensureValueNumeric fb)) t).length with hmsl
        have hle : msl ≤ fa.rows.length := by
          have := allMatches_length_le scorer (toRecords (ensureValueNumeric fa))
            (toRecords (ensureValueNumeric fb)) t
          rwa [toRecords_length, ensure_rows] at this
        have hleQ : (msl : ℚ) ≤ (fa.rows.length : ℚ) := by exact_mod_cast hle
        have hposQ : (0:ℚ) < (fa.rows.length : ℚ) := by exact_mod_cast hpos
        calc ((msl : ℚ) / ((ensureValueNumeric fa).rows.length : ℚ)) * 100
            = ((msl : ℚ) / (fa.rows.length : ℚ)) * 100 := by rw [hrows]
          _ ≤ 1 * 100 := by
              have := (div_le_one hposQ).2 hleQ
              nlinarith
          _ = 100 := one_mul 100
    · -- pct_by_value bounds
      intro hnn
      rcases hvs : (ensureValueNumeric fa).valueNumeric with _ | vs
      · have := ensure_isSome fa
        rw [hvs] at this
        simp at this
      rw [hvs] at hnn
      simp only [Option.getD_some] at hnn
      by_cases htot : totalValue (ensureValueNumeric fa) > 0
      · rw [if_pos htot]
        have hA := toRecords_vnum_nonneg (f := ensureValueNumeric fa) hvs hnn
        have hAe : ∀ p ∈ (toRecords (ensureValueNumeric fa)).enum, 0 ≤ p.2.vnum := by
          intro p hp
          rcases List.mem_enum hp with ⟨hlt, hval⟩
          rw [hval]
          exact hA _ (List.getElem_mem hlt)
        have hmv0 : 0 ≤ ((allMatches scorer (toRecords (ensureValueNumeric fa))
            (toRecords (ensureValueNumeric fb)) t).map (fun m => m.fundVnum)).sum := by
          refine List.sum_nonneg ?_
          intro x hx
          rcases List.mem_map.1 hx with ⟨m, hm, rfl⟩
          rcases allMatches_fundVnum_src hm with ⟨p, hp, hval⟩
          rw [hval]
          exact hAe p hp
        have hmvle : ((allMatches scorer (toRecords (ensureValueNumeric fa))
            (toRecords (ensureValueNumeric fb)) t).map (fun m => m.fundVnum)).sum ≤
            totalValue (ensureValueNumeric fa) := by
          have h1 := allMatches_value_le scorer (toRecords (ensureValueNumeric fa))
            (toRecords (ensureValueNumeric fb)) t hAe
          have h2 : ((toRecords (ensureValueNumeric fa)).enum.map
              (fun p => p.2.vnum)).sum =
              ((toRecords (ensureValueNumeric fa)).map (fun r => r.vnum)).sum := by
            have : ((toRecords (ensureValueNumeric fa)).enum.map Prod.snd).map
                (fun r : MRec => r.vnum) =
                (toRecords (ensureValueNumeric fa)).map (fun r => r.vnum) := by
              rw [List.enum_map_snd]
            rw [← this, List.map_map]
            rfl
          have h3 := toRecords_vnum_sum (f := ensureValueNumeric fa) hvs
          have h4 : (vs.take (ensureValueNumeric fa).rows.length).sum ≤ vs.sum :=
            take_sum_le vs hnn _
          have h5 : totalValue (ensureValueNumeric fa) = vs.sum := by
            unfold totalValue
            rw [hvs]
          rw [h5]
          calc ((allMatches scorer (toRecords (ensureValueNumeric fa))
              (toRecords (ensureValueNumeric fb)) t).map (fun m => m.fundVnum)).sum
              ≤ ((toRecords (ensureValueNumeric fa)).enum.map
                  (fun p => p.2.vnum)).sum := h1
            _ = ((toRecords (ensureValueNumeric fa)).map (fun r => r.vnum)).sum := h2
            _ = (vs.take (ensureValueNumeric fa).rows.length).sum := h3
            _ ≤ vs.sum := h4
        constructor
        · positivity
        · calc (((allMatches scorer (toRecords (ensureValueNumeric fa))
              (toRecords (ensureValueNumeric fb)) t).map
                (fun m => m.fundVnum)).sum /
              totalValue (ensureValueNumeric fa)) * 100
              ≤ 1 * 100 := by
                have := (div_le_one htot).2 hmvle
                nlinarith
            _ = 100 := one_mul 100
      · rw [if_neg htot]
        exact ⟨le_refl 0, by norm_num⟩

/-- Witness for C4: bounds instantiated at the concrete Zeta frames, whose
prepared value column `[10]` is non-negative. -/
theorem claim_c4_witness :
    (0 ≤ (matchSecurities scorerModel faZeta fbZeta 80).2.1 ∧
      (matchSecurities scorerModel faZeta fbZeta 80).2.1 ≤ 100) ∧
    (0 ≤ (matchSecurities scorerModel faZeta fbZeta 80).2.2.1 ∧
      (matchSecurities scorerModel faZeta fbZeta 80).2.2.1 ≤ 100) :=
  ⟨(claim_c4_coverage_bounds scorerModel faZeta fbZeta 80).1,
    (claim_c4_coverage_bounds scorerModel faZeta fbZeta 80).2.1 (by decide)⟩

/-! ## C9: (non-)purity of `match_securities` -/

theorem ensure_of_some {f : HFrame} (h : (f.valueNumeric).isSome) :
    ensureValueNumeric f = f := by
  unfold ensureValueNumeric
  split
  · rfl
  next hnone => rw [hnone] at h; simp at h

/-- Fund frame with a `Value` column but no `Value_Numeric` column. -/
def faMut : HFrame := ⟨[⟨some "Delta", none, .str "$10", 0⟩], none⟩

/-- Institution frame that already has its `Value_Numeric` column. -/
def fbMut : HFrame := ⟨[⟨some "Echo", none, .str "$8", 0⟩], some [8]⟩

/-- **C9 counterexample.**  `match_securities` is NOT side-effect free: a
fund frame that has a `Value` column but no `Value_Numeric` column comes out
of the call with a new `Value_Numeric` column (lines 182–190 assign to
`fund_holdings['Value_Numeric']` in place). -/
theorem claim_c9_counterexample :
    (matchSecurities scorerModel faMut fbMut 80).2.2.2.1 ≠ faMut := by decide

/-- **C9 (amended).**  The only mutation is adding a missing `Value_Numeric`
column: when both inputs already carry one (or either input is empty), both
inputs are returned exactly as given. -/
theorem claim_c9_amended (scorer : String → String → ℕ) (fa fb : HFrame)
    (t : ℕ) (ha : (fa.valueNumeric).isSome) (hb : (fb.valueNumeric).isSome) :
    (matchSecurities scorer fa fb t).2.2.2.1 = fa ∧
    (matchSecurities scorer fa fb t).2.2.2.2 = fb := by
  rw [matchSecurities_eq]
  split
  · exact ⟨rfl, rfl⟩
  · exact ⟨ensure_of_some ha, ensure_of_some hb⟩

/-- Witness for C9 (amended) at the Zeta frames, both of which carry a
`Value_Numeric` column. -/
theorem claim_c9_witness :
    (matchSecurities scorerModel faZeta fbZeta 80).2.2.2.1 = faZeta ∧
    (matchSecurities scorerModel faZeta fbZeta 80).2.2.2.2 = fbZeta :=
  claim_c9_amended scorerModel faZeta fbZeta 80 (by decide) (by decide)

/-! ## C8: malformed-value handling is NOT per-row -/

/-- Frame whose second row's `Value` cannot be parsed. -/
def faBadRow : HFrame :=
  ⟨[⟨some "Golf", none, .str "$10", 0⟩, ⟨some "Hotel", none, .str "abc", 0⟩],
    none⟩

/-- A `create_holdings` row that parses. -/
def chGood : CHRow := ⟨.str "$10", .num 0, none, none, some "Golf", none, none⟩

/-- A `create_holdings` row whose `Value` fails to parse. -/
def chBad : CHRow := ⟨.str "abc", .num 0, none, none, some "Hotel", none, none⟩

/-- **C8 counterexample.**  The claim says a bad row — and only that row —
degrades to value `0.0` while the others keep their parsed values.  In
`match_securities` the `except` of lines 188–190 zeroes the WHOLE column
(`[0, 0]`, not `[10, 0]`), and in `create_holdings` the bad row is DROPPED
(one holding remains, there is no zero-valued holding for the bad row). -/
theorem claim_c8_counterexample :
    (ensureValueNumeric faBadRow).valueNumeric = some [0, 0] ∧
    (ensureValueNumeric faBadRow).valueNumeric ≠ some [10, 0] ∧
    createHoldings [chGood, chBad] =
      [⟨none, none, some "Golf", none, none, 10, 0⟩] := by decide

/-- **C8 (amended).**  Processing never raises, but the degradation is not
per-row: in `match_securities` a single unparseable `Value` anywhere in the
batch degrades EVERY row's `Value_Numeric` to `0.0` (and only when all rows
parse does each keep its own value), while in `create_holdings` a row whose
value or percentage fails to parse is dropped entirely and the surrounding
rows are processed normally. -/
theorem claim_c8_amended :
    (∀ f : HFrame, f.valueNumeric = none →
      (∃ r ∈ f.rows, moneyToRat? r.value = none) →
      (ensureValueNumeric f).valueNumeric = some (f.rows.map (fun _ => 0))) ∧
    (∀ f : HFrame, f.valueNumeric = none →
      (∀ r ∈ f.rows, (moneyToRat? r.value).isSome) →
      (ensureValueNumeric f).valueNumeric =
        some (f.rows.map (fun r => (moneyToRat? r.value).getD 0))) ∧
    (∀ pre post : List CHRow, ∀ row : CHRow, createHolding? row = none →
      createHoldings (pre ++ row :: post) =
        createHoldings pre ++ createHoldings post) ∧
    (∀ pre post : List CHRow, ∀ row : CHRow, ∀ h : Holding,
      createHolding? row = some h →
      createHoldings (pre ++ row :: post) =
        createHoldings pre ++ h :: createHoldings post) := by
  refine ⟨?_, ?_, ?_, ?_⟩
  · rintro f hnone ⟨r, hr, hfail⟩
    unfold ensureValueNumeric
    split
    next hsome => rw [hnone] at hsome; cases hsome
    · have hf : ((f.rows.map (fun r => moneyToRat? r.value)).all Option.isSome) = false := by
        refine List.all_eq_false.2 ⟨moneyToRat? r.value, List.mem_map_of_mem _ hr, ?_⟩
        simp [hfail]
      rw [if_neg (by simp [hf])]
  · intro f hnone hall
    unfold ensureValueNumeric
    split
    next hsome => rw [hnone] at hsome; cases hsome
    · rw [if_pos]
      · simp [List.map_map]
      · refine List.all_eq_true.2 ?_
        intro o ho
        rcases List.mem_map.1 ho with ⟨r, hr, rfl⟩
        exact hall r hr
  · intro pre post row hrow
    simp [createHoldings, List.filterMap_append, List.filterMap_cons, hrow]
  · intro pre post row h hrow
    simp [createHoldings, List.filterMap_append, List.filterMap_cons, hrow]

/-- Witness for C8 (amended): the bad-row frame collapses to the all-zero
column, and the bad `create_holdings` row vanishes between its neighbours. -/
theorem claim_c8_witness :
    (ensureValueNumeric faBadRow).valueNumeric =
      some (faBadRow.rows.map (fun _ => 0)) ∧
    createHoldings ([chGood] ++ chBad :: []) =
      createHoldings [chGood] ++ createHoldings [] :=
  ⟨claim_c8_amended.1 faBadRow rfl
      ⟨⟨some "Hotel", none, .str "abc", 0⟩, by decide, by decide⟩,
    claim_c8_amended.2.2.1 [chGood] [] chBad (by decide)⟩

/-! ## C6: overlap-matrix symmetry and zero diagonal -/

/-- Contribution of one index pair to one matrix cell. -/
def pairDelta (x y : String) (p : String × String) : ℕ :=
  (if x = p.1 ∧ y = p.2 then 1 else 0) + (if x = p.2 ∧ y = p.1 then 1 else 0)

theorem dbump_apply (m : String → String → ℕ) (a b x y : String) :
    bumpCell (bumpCell m a b) b a x y = m x y + pairDelta x y (a, b) := by
  unfold bumpCell pairDelta
  by_cases hP1 : x = a ∧ y = b <;> by_cases hP2 : x = b ∧ y = a
  · have hab : a = b := hP1.1.symm.trans hP2.1
    rw [if_pos hP2, if_pos ⟨hab.symm, hab⟩, if_pos hP1, if_pos hP2,
      hP1.1, hP1.2]
  · rw [if_neg hP2, if_pos hP1, if_pos hP1, if_neg hP2, hP1.1, hP1.2]
  · have hab : ¬(b = a ∧ a = b) := fun hc => hP1 ⟨hP2.1.trans hc.1, hP2.2.trans hc.2⟩
    rw [if_pos hP2, if_neg hab, if_neg hP1, if_pos hP2, hP2.1, hP2.2]
  · rw [if_neg hP2, if_neg hP1, if_neg hP1, if_neg hP2]
    omega

theorem foldl_bump_apply :
    ∀ (ps : List (String × String)) (m : String → String → ℕ) (x y : String),
      (ps.foldl (fun m p => bumpCell (bumpCell m p.1 p.2) p.2 p.1) m) x y =
        m x y + (ps.map (pairDelta x y)).sum
  | [], m, x, y => by simp
  | p :: ps, m, x, y => by
    rcases p with ⟨a, b⟩
    rw [List.foldl_cons, foldl_bump_apply ps _ x y, dbump_apply]
    simp only [List.map_cons, List.sum_cons]
    omega

theorem overlapMatrix_apply :
    ∀ (entries : List (List String)) (m : String → String → ℕ) (x y : String),
      (entries.foldl entryStep m) x y =
        m x y +
          (entries.map (fun fs => ((pairsOf fs).map (pairDelta x y)).sum)).sum
  | [], m, x, y => by simp
  | fs :: entries, m, x, y => by
    rw [List.foldl_cons, overlapMatrix_apply entries _ x y]
    unfold entryStep
    rw [foldl_bump_apply]
    simp only [List.map_cons, List.sum_cons]
    omega

theorem pairDelta_symm (x y : String) (p : String × String) :
    pairDelta x y p = pairDelta y x p := by
  unfold pairDelta
  rw [add_comm]
  congr 1
  · exact if_congr (Iff.intro (fun h => ⟨h.2, h.1⟩) (fun h => ⟨h.2, h.1⟩)) rfl rfl
  · exact if_congr (Iff.intro (fun h => ⟨h.2, h.1⟩) (fun h => ⟨h.2, h.1⟩)) rfl rfl

theorem pairsOf_ne {l : List String} (h : l.Nodup) {a b : String}
    (hp : (a, b) ∈ pairsOf l) : a ≠ b := by
  induction l with
  | nil => cases hp
  | cons x xs ih =>
    rw [pairsOf] at hp
    rcases List.mem_append.1 hp with hp | hp
    · rcases List.mem_map.1 hp with ⟨y, hy, heq⟩
      cases heq
      intro hab
      rw [hab] at h
      exact (List.nodup_cons.1 h).1 hy
    · exact ih (List.Nodup.of_cons h) hp

/-- **C6.**  The fund-by-fund overlap matrix is symmetric for every input,
and its diagonal is zero whenever each entry's fund list has distinct
elements — which is always the case, since each entry's `funds` is a Python
set. -/
theorem claim_c6_matrix_symmetric_zero_diagonal (entries : List (List String)) :
    (∀ i j, overlapMatrix entries i j = overlapMatrix entries j i) ∧
    ((∀ funds ∈ entries, funds.Nodup) →
      ∀ i, overlapMatrix entries i i = 0) := by
  constructor
  · intro i j
    unfold overlapMatrix
    rw [overlapMatrix_apply, overlapMatrix_apply]
    have h1 : ∀ fs : List String, ((pairsOf fs).map (pairDelta i j)).sum =
        ((pairsOf fs).map (pairDelta j i)).sum := fun fs =>
      congrArg List.sum (List.map_congr_left (fun p _ => pairDelta_symm i j p))
    have h2 : (entries.map (fun fs => ((pairsOf fs).map (pairDelta i j)).sum)) =
        (entries.map (fun fs => ((pairsOf fs).map (pairDelta j i)).sum)) :=
      List.map_congr_left (fun fs _ => h1 fs)
    rw [h2]
  · intro hnd i
    unfold overlapMatrix
    rw [overlapMatrix_apply]
    have hz : (entries.map
        (fun fs => ((pairsOf fs).map (pairDelta i i)).sum)).sum = 0 := by
      refine List.sum_eq_zero ?_
      intro x hx
      rcases List.mem_map.1 hx with ⟨fs, hfs, rfl⟩
      refine List.sum_eq_zero ?_
      intro z hz
      rcases List.mem_map.1 hz with ⟨p, hp, rfl⟩
      have hne : p.1 ≠ p.2 := by
        rcases p with ⟨a, b⟩
        exact pairsOf_ne (hnd fs hfs) hp
      unfold pairDelta
      rw [if_neg (fun hcon => hne (hcon.1.symm.trans hcon.2)),
        if_neg (fun hcon => hne (hcon.2.symm.trans hcon.1))]
      omega
    rw [hz]

/-- Witness for C6 at a two-fund entry list. -/
theorem claim_c6_witness :
    overlapMatrix [["F1", "F2"]] "F1" "F2" =
      overlapMatrix [["F1", "F2"]] "F2" "F1" ∧
    overlapMatrix [["F1", "F2"]] "F1" "F1" = 0 :=
  ⟨(claim_c6_matrix_symmetric_zero_diagonal [["F1", "F2"]]).1 "F1" "F2",
    (claim_c6_matrix_symmetric_zero_diagonal [["F1", "F2"]]).2 (by decide) "F1"⟩

/-! ## C7: fund hierarchy expansion -/

/-- The LAST direct holding whose valid ticker is `t` (what the last-wins
`ticker_to_fund_map` retains). -/
def lastValid (direct : List DRow) (t : String) : Option DRow :=
  (direct.filter (fun h => decide (validTicker? h.ticker = some t))).getLast?

theorem tmap_foldl_lookup (l : List DRow)
    (base : String → Option (Option String × ℚ)) (t : String) :
    (l.foldl
        (fun m h =>
          match validTicker? h.ticker with
          | some t2 => fun k => if k = t2 then some (h.name, dVnumOf h) else m k
          | none => m)
        base) t =
      (((l.filter (fun h => decide (validTicker? h.ticker = some t))).getLast?).map
          (fun h => (h.name, dVnumOf h))).or (base t) := by
  induction l using List.reverseRecOn with
  | nil => simp
  | append_singleton l a ih =>
    rw [List.foldl_append, List.filter_append]
    simp only [List.foldl_cons, List.foldl_nil]
    cases ha : validTicker? a.ticker with
    | none =>
      have : decide (validTicker? a.ticker = some t) = false := by simp [ha]
      simp [ha, this, ih]
    | some t2 =>
      by_cases ht : t = t2
      · subst ht
        have : decide (validTicker? a.ticker = some t) = true := by simp [ha]
        simp [ha, this]
      · have : decide (validTicker? a.ticker = some t) = false := by
          simp [ha]; exact fun h => ht h.symm
        simp [ha, this, ih, ht, Ne.symm ht]

theorem tickerFundMap_eq (direct : List DRow) (t : String) :
    tickerFundMap direct t =
      (lastValid direct t).map (fun h => (h.name, dVnumOf h)) := by
  have := tmap_foldl_lookup direct (fun _ => none) t
  simpa [tickerFundMap, lastValid] using this

theorem tmap_fst (direct : List DRow) (t : String) :
    ((tickerFundMap direct t).getD (none, 0)).1 =
      (lastValid direct t).bind (fun h => h.name) := by
  rw [tickerFundMap_eq]
  cases lastValid direct t with
  | none => rfl
  | some h => rfl

theorem validTickers_filter (direct : List DRow) :
    validTickers (direct.filter (fun h => (validTicker? h.ticker).isSome)) =
      validTickers direct := by
  unfold validTickers
  induction direct with
  | nil => rfl
  | cons h l ih =>
    cases hv : validTicker? h.ticker with
    | none => simp [List.filter_cons, hv, List.filterMap_cons, ih]
    | some t => simp [List.filter_cons, hv, List.filterMap_cons, ih]

theorem lastValid_filter (direct : List DRow) (t : String) :
    lastValid (direct.filter (fun h => (validTicker? h.ticker).isSome)) t =
      lastValid direct t := by
  unfold lastValid
  rw [List.filter_filter]
  refine congrArg _ (List.filter_congr ?_)
  intro h _
  cases hv : validTicker? h.ticker with
  | none => simp [hv]
  | some t2 => simp [hv]

theorem tickerFundMap_filter (direct : List DRow) (t : String) :
    tickerFundMap (direct.filter (fun h => (validTicker? h.ticker).isSome)) t =
      tickerFundMap direct t := by
  rw [tickerFundMap_eq, tickerFundMap_eq, lastValid_filter]

/-- **C7 counterexample.**  Two direct holdings named `"AFund"` and `"BFund"`
share the ticker `"X"`.  The expansion fetches `"X"` once per holding, but
`ticker_to_fund_map` is keyed by ticker with last-wins, so BOTH batches are
stamped `Parent_Fund = "BFund"`; the claim requires the first batch to carry
the identity (`"AFund"`) of the holding it was fetched for. -/
theorem claim_c7_counterexample :
    ((expandUnderlying
        (fun t => if t = "X" then some ⟨[⟨some "Sec", none, .num 5, 0⟩], some [5]⟩ else none)
        [⟨some "AFund", some "X", some 1, none⟩,
         ⟨some "BFund", some "X", some 2, none⟩]).map (fun r => r.parentFund)) =
      [some "BFund", some "BFund"] ∧
    (some "AFund" : Option String) ≠ some "BFund" := by decide

/-- **C7 (amended).**  For every direct holding with a valid ticker the
underlying holdings are fetched (once per holding, in order); every fetched
record is stamped with `Parent_Ticker` equal to the fetched ticker and
`Parent_Fund` equal to the name of the LAST direct holding bearing that
ticker — the fetching holding's own name whenever valid tickers are
distinct; holdings without a valid ticker contribute nothing (dropping them
leaves the expansion unchanged); and a failed (`none`) or empty fetch is
skipped while every other ticker's records still appear. -/
theorem claim_c7_amended (fetch : String → Option HFrame) (direct : List DRow) :
    (∀ r ∈ expandUnderlying fetch direct,
      r.parentTicker ∈ validTickers direct ∧
      r.parentFund = ((lastValid direct r.parentTicker).bind (fun h => h.name)) ∧
      ∃ fr, fetch r.parentTicker = some fr ∧ fr.rows ≠ [] ∧
        r.row ∈ toRecords (ensureValueNumeric fr)) ∧
    (∀ t ∈ validTickers direct, ∀ fr, fetch t = some fr → fr.rows ≠ [] →
      ∀ mrec ∈ toRecords (ensureValueNumeric fr),
        ({ row := mrec
           parentFund := (lastValid direct t).bind (fun h => h.name)
           parentTicker := t } : URec) ∈ expandUnderlying fetch direct) ∧
    (expandUnderlying fetch
        (direct.filter (fun h => (validTicker? h.ticker).isSome)) =
      expandUnderlying fetch direct) := by
  refine ⟨?_, ?_, ?_⟩
  · intro r hr
    rcases List.mem_flatMap.1 hr with ⟨t, ht, hrt⟩
    cases hf : fetch t with
    | none => simp only [hf] at hrt; simp at hrt
    | some fr =>
      simp only [hf] at hrt
      by_cases he : fr.rows.isEmpty
      · rw [if_pos he] at hrt; simp at hrt
      · rw [if_neg he] at hrt
        rcases List.mem_map.1 hrt with ⟨mrec, hm, rfl⟩
        refine ⟨ht, tmap_fst direct t, fr, hf, ?_, hm⟩
        intro hnil
        exact he (by rw [hnil]; rfl)
  · intro t ht fr hf hne mrec hm
    refine List.mem_flatMap.2 ⟨t, ht, ?_⟩
    simp only [hf]
    rw [if_neg (by simpa using hne)]
    rw [← tmap_fst direct t]
    exact List.mem_map_of_mem _ hm
  · unfold expandUnderlying
    rw [validTickers_filter]
    refine congrArg _ ?_
    funext t
    simp only [tickerFundMap_filter]

/-- Concrete expansion data for the C7 witness. -/
def direct7 : List DRow :=
  [⟨some "AFund", some "X", some 1, none⟩,
   ⟨some "BFund", some "X", some 2, none⟩]

/-- Underlying frame fetched for ticker `"X"`. -/
def frame7 : HFrame := ⟨[⟨some "Sec", none, .num 5, 0⟩], some [5]⟩

/-- Fetch collaborator for the C7 witness: only `"X"` resolves. -/
def fetch7 : String → Option HFrame :=
  fun t => if t = "X" then some frame7 else none

/-- Witness for C7 (amended): the stamped record for ticker `"X"` is in the
expansion. -/
theorem claim_c7_witness :
    ({ row := ⟨some "Sec", none, .num 5, 5, 0⟩
       parentFund := (lastValid direct7 "X").bind (fun h => h.name)
       parentTicker := "X" } : URec) ∈ expandUnderlying fetch7 direct7 :=
  (claim_c7_amended fetch7 direct7).2.1 "X" (by decide) frame7 (by decide)
    (by decide) ⟨some "Sec", none, .num 5, 5, 0⟩ (by decide)

/-! ## C5: aggregation order-(in)dependence -/

/-- The flattened sequence of aggregation events: one `(fund, (key, row))`
triple per dict item of every fund, in processing order. -/
def flatItems (funds : List (String × List (String × PRow))) :
    List (String × (String × PRow)) :=
  funds.flatMap (fun f => f.2.map (fun it => (f.1, it)))

/-- One aggregation event applied to the entry list. -/
def ovStep (ov : List OEntry) (x : String × (String × PRow)) : List OEntry :=
  updOverlaps ov x.1 x.2.2.name (overlapVal x.2.2.value)

/-- One aggregation event applied to the lookup-function view. -/
def gStep (g : String → Finset String × ℚ) (fund nm : String) (v : ℚ) :
    String → Finset String × ℚ :=
  fun k => if k = nm then (insert fund (g k).1, (g k).2 + v) else g k

/-- The lookup-function view of the whole aggregation (proof device). -/
def ovFun (l : List (String × (String × PRow))) : String → Finset String × ℚ :=
  l.foldl (fun g x => gStep g x.1 x.2.2.name (overlapVal x.2.2.value))
    (fun _ => (∅, 0))

theorem foldl_nested_eq :
    ∀ (funds : List (String × List (String × PRow))) (ov : List OEntry),
      funds.foldl
          (fun ov f =>
            f.2.foldl
              (fun ov it => updOverlaps ov f.1 it.2.name (overlapVal it.2.value)) ov)
          ov =
        (flatItems funds).foldl ovStep ov
  | [], ov => rfl
  | f :: funds, ov => by
    have hcons : flatItems (f :: funds) =
        f.2.map (fun it => (f.1, it)) ++ flatItems funds := rfl
    rw [List.foldl_cons, foldl_nested_eq funds, hcons, List.foldl_append,
      List.foldl_map]
    rfl

theorem flatItems_filter (funds : List (String × List (String × PRow))) :
    flatItems (funds.filter (fun f => !f.2.isEmpty)) = flatItems funds := by
  induction funds with
  | nil => rfl
  | cons f funds ih =>
    have hcons : flatItems (f :: funds) =
        f.2.map (fun it => (f.1, it)) ++ flatItems funds := rfl
    by_cases hf : f.2.isEmpty
    · rw [List.filter_cons, if_neg (by simp [hf]), ih, hcons,
        List.isEmpty_iff.1 hf]
      rfl
    · rw [List.filter_cons, if_pos (by simp [hf])]
      have hcons2 : flatItems (f :: funds.filter (fun f => !f.2.isEmpty)) =
          f.2.map (fun it => (f.1, it)) ++
            flatItems (funds.filter (fun f => !f.2.isEmpty)) := rfl
      rw [hcons2, ih, hcons]

theorem analyzeOverlaps_eq_flat (funds : List (String × List (String × PRow))) :
    analyzeOverlaps funds = (flatItems funds).foldl ovStep [] := by
  unfold analyzeOverlaps
  rw [foldl_nested_eq, flatItems_filter]

theorem holdingsMapOf_aux :
    ∀ (rows : List PRow) (acc : List (String × PRow)),
      (∀ r ∈ rows, ∀ q ∈ acc, q.1 ≠ r.name) →
      (rows.map (fun r => r.name)).Nodup →
      rows.foldl
          (fun acc r =>
            if acc.any (fun q => q.1 = r.name) then
              acc.map (fun q => if q.1 = r.name then (q.1, r) else q)
            else acc ++ [(r.name, r)])
          acc =
        acc ++ rows.map (fun r => (r.name, r))
  | [], acc, _, _ => by simp
  | r :: rows, acc, hdis, hnd => by
    rw [List.map_cons] at hnd
    have hnot : r.name ∉ rows.map (fun r => r.name) := (List.nodup_cons.1 hnd).1
    have hnd2 : (rows.map (fun r => r.name)).Nodup := (List.nodup_cons.1 hnd).2
    have hany : (acc.any (fun q => q.1 = r.name)) = false := by
      rw [List.any_eq_false]
      intro q hq
      simpa using hdis r (List.mem_cons_self r rows) q hq
    simp only [List.foldl_cons]
    rw [if_neg (by simp [hany])]
    rw [holdingsMapOf_aux rows (acc ++ [(r.name, r)]) ?_ hnd2]
    · simp
    · intro x hx q hq
      rcases List.mem_append.1 hq with hq | hq
      · exact hdis x (List.mem_cons_of_mem r hx) q hq
      · rcases List.mem_singleton.1 hq with rfl
        intro hcon
        have hcon2 : r.name = x.name := hcon
        exact hnot (by rw [hcon2]; exact List.mem_map_of_mem _ hx)

theorem holdingsMapOf_nodup {rows : List PRow}
    (h : (rows.map (fun r => r.name)).Nodup) :
    holdingsMapOf rows = rows.map (fun r => (r.name, r)) := by
  have := holdingsMapOf_aux rows [] (by simp) h
  simpa [holdingsMapOf] using this

/-- Keys of an overlap-entry list (the dict's key view). -/
def entKeys (ov : List OEntry) : List String := ov.map (fun e => e.1)

/-- Invariant tying the entry list produced by the aggregation fold to its
lookup-function view: keys are distinct, an entry is present exactly when the
function holds its value under its key, absent keys map to `(∅, 0)`, and
present keys always carry a non-empty fund set. -/
def OvInv (ov : List OEntry) (g : String → Finset String × ℚ) : Prop :=
  (entKeys ov).Nodup ∧
  (∀ e : OEntry, e ∈ ov ↔ e.1 ∈ entKeys ov ∧ g e.1 = e.2) ∧
  (∀ k : String, k ∉ entKeys ov → g k = (∅, 0)) ∧
  (∀ k : String, k ∈ entKeys ov → (g k).1 ≠ ∅)

theorem ovInv_upd {ov : List OEntry} {g : String → Finset String × ℚ}
    (h : OvInv ov g) (fund nm : String) (v : ℚ) :
    OvInv (updOverlaps ov fund nm v) (gStep g fund nm v) := by
  obtain ⟨hnd, hmem, habs, hne⟩ := h
  have hg1 : gStep g fund nm v nm = (insert fund (g nm).1, (g nm).2 + v) := by
    unfold gStep
    rw [if_pos rfl]
  have hg2 : ∀ k ≠ nm, gStep g fund nm v k = g k := by
    intro k hk
    unfold gStep
    rw [if_neg hk]
  by_cases hp : ov.any (fun e => e.1 = nm)
  · -- the key is already present: in-place update
    have hin : nm ∈ entKeys ov := by
      rcases List.any_eq_true.1 hp with ⟨e, he, hee⟩
      exact List.mem_map.2 ⟨e, he, by simpa using hee⟩
    have hupd : updOverlaps ov fund nm v =
        ov.map (fun e => if e.1 = nm then (e.1, insert fund e.2.1, e.2.2 + v) else e) := by
      unfold updOverlaps
      rw [if_pos (by simpa using hp)]
    have hkeys : entKeys (updOverlaps ov fund nm v) = entKeys ov := by
      rw [hupd]
      unfold entKeys
      rw [List.map_map]
      refine List.map_congr_left ?_
      intro e _
      by_cases he : e.1 = nm
      · simp [he]
      · simp [he]
    have huniq : ∀ e ∈ ov, e.1 = nm → e.2 = g nm := by
      intro e he hek
      have := ((hmem e).1 he).2
      rw [hek] at this
      rw [this]
    refine ⟨by rw [hkeys]; exact hnd, ?_, ?_, ?_⟩
    · intro e
      rw [hkeys, hupd]
      constructor
      · intro he
        rcases List.mem_map.1 he with ⟨e0, he0, heq⟩
        by_cases he0k : e0.1 = nm
        · rw [if_pos he0k] at heq
          have he02 : e0.2 = g nm := huniq e0 he0 he0k
          rcases e with ⟨ek, eS, ev⟩
          cases heq
          refine ⟨by rw [he0k]; exact hin, ?_⟩
          show gStep g fund nm v e0.1 = (insert fund e0.2.1, e0.2.2 + v)
          rw [he0k, hg1, he02]
        · rw [if_neg he0k] at heq
          subst heq
          have := (hmem e0).1 he0
          exact ⟨this.1, by rw [hg2 e0.1 he0k]; exact this.2⟩
      · rintro ⟨hek, hev⟩
        by_cases henm : e.1 = nm
        · have he0 : (nm, g nm) ∈ ov := (hmem (nm, g nm)).2 ⟨hin, rfl⟩
          refine List.mem_map.2 ⟨(nm, g nm), he0, ?_⟩
          rw [if_pos rfl]
          rcases e with ⟨ek, eS, ev⟩
          have : ek = nm := henm
          subst this
          rw [hg1] at hev
          exact Prod.ext rfl hev
        · have he : e ∈ ov := (hmem e).2 ⟨hek, by rw [← hg2 e.1 henm]; exact hev⟩
          refine List.mem_map.2 ⟨e, he, ?_⟩
          rw [if_neg henm]
    · intro k hk
      rw [hkeys] at hk
      have hknm : k ≠ nm := fun hcon => hk (hcon ▸ hin)
      rw [hg2 k hknm]
      exact habs k hk
    · intro k hk
      rw [hkeys] at hk
      by_cases hknm : k = nm
      · subst hknm
        rw [hg1]
        exact Finset.insert_ne_empty _ _
      · rw [hg2 k hknm]
        exact hne k hk
  · -- the key is new: append
    have hout : nm ∉ entKeys ov := by
      intro hcon
      rcases List.mem_map.1 hcon with ⟨e, he, hek⟩
      have hall : ∀ (S : Finset String) (q : ℚ), (nm, S, q) ∉ ov := by
        simpa [List.any_eq_true] using hp
      rcases e with ⟨ek, eS, ev⟩
      have : ek = nm := hek
      subst this
      exact hall eS ev he
    have hupd : updOverlaps ov fund nm v = ov ++ [(nm, insert fund ∅, 0 + v)] := by
      unfold updOverlaps
      rw [if_neg (by simpa using hp)]
    have hkeys : entKeys (updOverlaps ov fund nm v) = entKeys ov ++ [nm] := by
      rw [hupd]
      unfold entKeys
      rw [List.map_append]
      rfl
    have hgnm : gStep g fund nm v nm = (insert fund ∅, 0 + v) := by
      rw [hg1, habs nm hout]
    refine ⟨?_, ?_, ?_, ?_⟩
    · rw [hkeys]
      refine List.Nodup.append hnd (List.nodup_singleton nm) ?_
      intro k hk hk2
      rcases List.mem_singleton.1 hk2 with rfl
      exact hout hk
    · intro e
      rw [hkeys, hupd]
      constructor
      · intro he
        rcases List.mem_append.1 he with he | he
        · have := (hmem e).1 he
          have henm : e.1 ≠ nm := fun hcon => hout (hcon ▸ this.1)
          exact ⟨List.mem_append_left _ this.1, by rw [hg2 e.1 henm]; exact this.2⟩
        · rcases List.mem_singleton.1 he with rfl
          exact ⟨List.mem_append_right _ (List.mem_singleton_self nm), hgnm⟩
      · rintro ⟨hek, hev⟩
        rcases List.mem_append.1 hek with hek | hek
        · have henm : e.1 ≠ nm := fun hcon => hout (hcon ▸ hek)
          refine List.mem_append_left _ ((hmem e).2 ⟨hek, ?_⟩)
          rw [← hg2 e.1 henm]
          exact hev
        · rcases List.mem_singleton.1 hek with hek
          refine List.mem_append_right _ (List.mem_singleton.2 ?_)
          rcases e with ⟨ek, eS, ev⟩
          have : ek = nm := hek
          subst this
          rw [hgnm] at hev
          exact Prod.ext rfl hev.symm
    · intro k hk
      rw [hkeys] at hk
      have hk1 : k ∉ entKeys ov := fun hcon => hk (List.mem_append_left _ hcon)
      have hk2 : k ≠ nm := fun hcon =>
        hk (List.mem_append_right _ (List.mem_singleton.2 hcon))
      rw [hg2 k hk2]
      exact habs k hk1
    · intro k hk
      rw [hkeys] at hk
      rcases List.mem_append.1 hk with hk | hk
      · have hknm : k ≠ nm := fun hcon => hout (hcon ▸ hk)
        rw [hg2 k hknm]
        exact hne k hk
      · rcases List.mem_singleton.1 hk with rfl
        rw [hgnm]
        exact Finset.insert_ne_empty _ _

theorem ovInv_foldl :
    ∀ (l : List (String × (String × PRow))) (ov : List OEntry)
      (g : String → Finset String × ℚ), OvInv ov g →
      OvInv (l.foldl ovStep ov)
        (l.foldl (fun g x => gStep g x.1 x.2.2.name (overlapVal x.2.2.value)) g)
  | [], ov, g, h => h
  | x :: l, ov, g, h => by
    rw [List.foldl_cons, List.foldl_cons]
    exact ovInv_foldl l _ _ (ovInv_upd h x.1 x.2.2.name (overlapVal x.2.2.value))

theorem ovInv_base : OvInv [] (fun _ => (∅, 0)) := by
  refine ⟨List.nodup_nil, ?_, fun _ _ => rfl, by simp [entKeys]⟩
  intro e
  simp [entKeys]

theorem mem_analyzeOverlaps_iff (funds : List (String × List (String × PRow)))
    (e : OEntry) :
    e ∈ analyzeOverlaps funds ↔
      ((ovFun (flatItems funds)) e.1).1 ≠ ∅ ∧
        (ovFun (flatItems funds)) e.1 = e.2 := by
  have hinv := ovInv_foldl (flatItems funds) [] _ ovInv_base
  obtain ⟨hnd, hmem, habs, hne⟩ := hinv
  rw [analyzeOverlaps_eq_flat]
  constructor
  · intro he
    have := (hmem e).1 he
    exact ⟨hne _ this.1, this.2⟩
  · rintro ⟨h1, h2⟩
    refine (hmem e).2 ⟨?_, h2⟩
    by_contra hk
    exact h1 (by rw [show ovFun (flatItems funds) e.1 = (∅, 0) from habs _ hk])

theorem analyzeOverlaps_keys_nodup
    (funds : List (String × List (String × PRow))) :
    ((analyzeOverlaps funds).map (fun e => e.1)).Nodup := by
  have hinv := ovInv_foldl (flatItems funds) [] _ ovInv_base
  rw [analyzeOverlaps_eq_flat]
  exact hinv.1

theorem gfold_step_comm (b : String → Finset String × ℚ)
    (x y : String × (String × PRow)) :
    gStep (gStep b x.1 x.2.2.name (overlapVal x.2.2.value)) y.1 y.2.2.name
        (overlapVal y.2.2.value) =
      gStep (gStep b y.1 y.2.2.name (overlapVal y.2.2.value)) x.1 x.2.2.name
        (overlapVal x.2.2.value) := by
  funext k
  unfold gStep
  by_cases hx : k = x.2.2.name <;> by_cases hy : k = y.2.2.name
  · have hxy : x.2.2.name = y.2.2.name := hx.symm.trans hy
    simp [hx, hy, hxy, Finset.Insert.comm, add_right_comm]
  · have hxy : ¬ x.2.2.name = y.2.2.name := fun hcon => hy (hx.trans hcon)
    simp [hx, hy, hxy]
  · have hyx : ¬ y.2.2.name = x.2.2.name := fun hcon => hx (hy.trans hcon)
    simp [hx, hy, hyx]
  · simp [hx, hy]

theorem ovFun_perm {l1 l2 : List (String × (String × PRow))} (p : l1.Perm l2) :
    ovFun l1 = ovFun l2 :=
  foldl_eq_of_perm (fun b x y => gfold_step_comm b x y) p _

theorem flatten_perm_forall2 {α : Type _} {ls1 ls2 : List (List α)}
    (h : List.Forall₂ List.Perm ls1 ls2) : ls1.flatten.Perm ls2.flatten := by
  induction h with
  | nil => exact List.Perm.refl _
  | cons hp _ ih => simpa using hp.append ih

theorem flatItems_perm_outer {funds1 funds2 : List (String × List (String × PRow))}
    (p : funds1.Perm funds2) : (flatItems funds1).Perm (flatItems funds2) := by
  unfold flatItems
  rw [List.flatMap_def, List.flatMap_def]
  exact (p.map _).flatten

theorem flatItems_perm_rel {l funds2 : List (String × List (String × PRow))}
    (hrel : List.Forall₂ (fun a b => a.1 = b.1 ∧ a.2.Perm b.2) l funds2) :
    (flatItems l).Perm (flatItems funds2) := by
  unfold flatItems
  rw [List.flatMap_def, List.flatMap_def]
  refine flatten_perm_forall2 ?_
  induction hrel with
  | nil => exact List.Forall₂.nil
  | cons hab hrest ih =>
    refine List.Forall₂.cons ?_ ih
    rename_i a b l1 l2
    rcases a with ⟨a1, a2⟩
    rcases b with ⟨b1, b2⟩
    rcases hab with ⟨hfst, hperm⟩
    cases hfst
    exact hperm.map _

theorem mapped_rel {l funds2 : List (String × List PRow)}
    (hrel : List.Forall₂ (fun a b => a.1 = b.1 ∧ a.2.Perm b.2) l funds2)
    (hnd : ∀ f ∈ l, (f.2.map (fun r => r.name)).Nodup) :
    List.Forall₂
      (fun a b : String × List (String × PRow) => a.1 = b.1 ∧ a.2.Perm b.2)
      (l.map (fun f => (f.1, holdingsMapOf f.2)))
      (funds2.map (fun f => (f.1, holdingsMapOf f.2))) := by
  induction hrel with
  | nil => exact List.Forall₂.nil
  | cons hab hrest ih =>
    rename_i a b l1 l2
    refine List.Forall₂.cons ⟨hab.1, ?_⟩ (ih ?_)
    · have hnda := hnd a (List.mem_cons_self _ _)
      have hndb : (b.2.map (fun r => r.name)).Nodup :=
        ((hab.2.map _).nodup_iff).1 hnda
      show (holdingsMapOf a.2).Perm (holdingsMapOf b.2)
      rw [holdingsMapOf_nodup hnda, holdingsMapOf_nodup hndb]
      exact hab.2.map _
    · intro f hf
      exact hnd f (List.mem_cons_of_mem _ hf)

/-- **C5 counterexample.**  One fund holding two rows with the SAME name
`"S"` and values 1 and 2: `holdings_map` is a dict keyed by name, so the
later row silently replaces the earlier, and permuting the two rows changes
which one survives — the overlap entry's total value is 2 in one order and
1 in the other, so the entry sets differ. -/
theorem claim_c5_counterexample :
    (fundOverlaps [("F", [⟨"S", .num 1⟩, ⟨"S", .num 2⟩])]).toFinset ≠
      (fundOverlaps [("F", [⟨"S", .num 2⟩, ⟨"S", .num 1⟩])]).toFinset := by
  intro hcon
  have h1 : (("S", insert "F" (∅ : Finset String), (0 : ℚ) + 2) : OEntry) ∈
      (fundOverlaps [("F", [⟨"S", .num 1⟩, ⟨"S", .num 2⟩])]).toFinset := by
    rw [show fundOverlaps [("F", [⟨"S", .num 1⟩, ⟨"S", .num 2⟩])] =
      [("S", insert "F" (∅ : Finset String), (0 : ℚ) + 2)] from rfl]
    simp
  rw [hcon] at h1
  rw [show fundOverlaps [("F", [⟨"S", .num 2⟩, ⟨"S", .num 1⟩])] =
    [("S", insert "F" (∅ : Finset String), (0 : ℚ) + 1)] from rfl] at h1
  simp at h1

/-- **C5 (amended).**  Order independence holds once no fund holds two rows
with the same name (which the name-keyed `holdings_map` dict silently
deduplicates, last row winning): permuting the fund list and the rows inside
each fund produces the same set of overlap entries and the same fund-by-fund
matrix. -/
theorem claim_c5_order_independence (funds1 funds2 l : List (String × List PRow))
    (hnd : ∀ f ∈ funds1, (f.2.map (fun r => r.name)).Nodup)
    (hperm : funds1.Perm l)
    (hrel : List.Forall₂ (fun a b => a.1 = b.1 ∧ a.2.Perm b.2) l funds2) :
    (fundOverlaps funds1).toFinset = (fundOverlaps funds2).toFinset ∧
    ∀ x y,
      overlapMatrix ((fundOverlaps funds1).map
          (fun e => e.2.1.sort (· ≤ ·))) x y =
        overlapMatrix ((fundOverlaps funds2).map
          (fun e => e.2.1.sort (· ≤ ·))) x y := by
  have hndl : ∀ f ∈ l, (f.2.map (fun r => r.name)).Nodup := by
    intro f hf
    exact hnd f (hperm.mem_iff.2 hf)
  have hflat : (flatItems (funds1.map (fun f => (f.1, holdingsMapOf f.2)))).Perm
      (flatItems (funds2.map (fun f => (f.1, holdingsMapOf f.2)))) := by
    refine (flatItems_perm_outer (hperm.map _)).trans ?_
    exact flatItems_perm_rel (mapped_rel hrel hndl)
  have hg : ovFun (flatItems (funds1.map (fun f => (f.1, holdingsMapOf f.2)))) =
      ovFun (flatItems (funds2.map (fun f => (f.1, holdingsMapOf f.2)))) :=
    ovFun_perm hflat
  have hfin : (fundOverlaps funds1).toFinset = (fundOverlaps funds2).toFinset := by
    refine Finset.ext ?_
    intro e
    rw [List.mem_toFinset, List.mem_toFinset]
    show e ∈ analyzeOverlaps (funds1.map (fun f => (f.1, holdingsMapOf f.2))) ↔
      e ∈ analyzeOverlaps (funds2.map (fun f => (f.1, holdingsMapOf f.2)))
    rw [mem_analyzeOverlaps_iff, mem_analyzeOverlaps_iff, hg]
  refine ⟨hfin, ?_⟩
  have hnd1 : (fundOverlaps funds1).Nodup :=
    List.Nodup.of_map _ (analyzeOverlaps_keys_nodup _)
  have hnd2 : (fundOverlaps funds2).Nodup :=
    List.Nodup.of_map _ (analyzeOverlaps_keys_nodup _)
  have hperm12 : (fundOverlaps funds1).Perm (fundOverlaps funds2) :=
    List.perm_of_nodup_nodup_toFinset_eq hnd1 hnd2 hfin
  intro x y
  unfold overlapMatrix
  rw [overlapMatrix_apply, overlapMatrix_apply]
  refine congrArg _ ?_
  refine List.Perm.sum_eq ?_
  rw [List.map_map, List.map_map]
  exact hperm12.map _

/-- Concrete data for the C5 witness: two funds, swapped, rows reversed
inside the second fund. -/
def c5funds1 : List (String × List PRow) :=
  [("F", [⟨"S", .num 1⟩]), ("G", [⟨"T", .num 2⟩, ⟨"U", .num 3⟩])]

/-- The same two funds with the fund order and G's row order permuted. -/
def c5funds2 : List (String × List PRow) :=
  [("G", [⟨"U", .num 3⟩, ⟨"T", .num 2⟩]), ("F", [⟨"S", .num 1⟩])]

/-- Intermediate list: fund order already permuted, rows still in the
original order. -/
def c5fundsMid : List (String × List PRow) :=
  [("G", [⟨"T", .num 2⟩, ⟨"U", .num 3⟩]), ("F", [⟨"S", .num 1⟩])]

/-- Witness for C5 (amended) at concrete data. -/
theorem claim_c5_witness :
    (fundOverlaps c5funds1).toFinset = (fundOverlaps c5funds2).toFinset ∧
    ∀ x y,
      overlapMatrix ((fundOverlaps c5funds1).map
          (fun e => e.2.1.sort (· ≤ ·))) x y =
        overlapMatrix ((fundOverlaps c5funds2).map
          (fun e => e.2.1.sort (· ≤ ·))) x y :=
  claim_c5_order_independence c5funds1 c5funds2 c5fundsMid
    (by decide)
    (by decide)
    (List.Forall₂.cons ⟨rfl, List.Perm.swap _ _ _⟩
      (List.Forall₂.cons ⟨rfl, List.Perm.refl _⟩ List.Forall₂.nil))

end Spec2Proof
